import Mathlib

/-!
Verification of the slow-mode diff engine and review workflow of
`pi-agent-extensions`.

The definitions below are a shallow embedding of `src/slow-mode/index.ts`
(two variants, separated in the file by a document separator) and
`src/slow-mode.ts`.  JavaScript strings become `String`, arrays become
`List`, the `Int32Array` frontier of the Myers algorithm becomes a total
function `Int → Int` (zero-initialised; out-of-bounds reads, which JS
answers with `undefined`, are only reachable in the `n = m = 0` corner,
where the produced edit script is `[]` either way), and the mutable loops
become structural recursions carrying their state explicitly.
-/

namespace SlowMode

/-- Edit operation in a diff: keep, insert, or delete a line
(`type Edit` in src/slow-mode/index.ts). -/
inductive Edit where
  | keep (line : String)
  | insert (line : String)
  | delete (line : String)
deriving Repr, DecidableEq

/-- JavaScript array indexing `xs[i]`: `some` element for `0 ≤ i < length`,
`none` (modelling `undefined`) otherwise. -/
def jsGet (xs : List String) (i : Int) : Option String :=
  if h : 0 ≤ i ∧ i.toNat < xs.length then some (xs.get ⟨i.toNat, h.2⟩) else none

/-- `jsGet` forced to a `String`; every call site is proved in bounds, so the
default is never returned (JS would store `undefined` there). -/
def jsGetD (xs : List String) (i : Int) : String := (jsGet xs i).getD ""

/-- The snake loop of `myersDiff`
(`while (x < n && y < m && oldLines[x] === newLines[y]) { x++; y++; }`),
on diagonal `k` (so `y = x - k` throughout); returns the final `x`.
Note `===` on two `undefined` values is true in JS, hence the `Option`
equality. -/
def snake (old new : List String) (k : Int) (x : Int) : Int :=
  if h : x < (old.length : Int) ∧ x - k < (new.length : Int) ∧
      jsGet old x = jsGet new (x - k) then
    snake old new k (x + 1)
  else x
termination_by ((old.length : Int) - x).toNat
decreasing_by
  omega

/-- One pass of the inner `for (let k = -d; k <= d; k += 2)` body of
`myersDiff`: choose the predecessor diagonal, advance, snake, store the
reach, and report whether `(n, m)` has been reached (`x >= n && y >= m`).
`v` models the `Int32Array`, indexed by `kIdx = k + max`. -/
def stepK (old new : List String) (maxD d : Int) (v : Int → Int) (k : Int) :
    (Int → Int) × Bool :=
  let kIdx := k + maxD
  let x0 := if k = -d ∨ (k ≠ d ∧ v (kIdx - 1) < v (kIdx + 1)) then v (kIdx + 1)
            else v (kIdx - 1) + 1
  let x := snake old new k x0
  (fun j => if j = kIdx then x else v j,
   decide ((old.length : Int) ≤ x ∧ (new.length : Int) ≤ x - k))

/-- The diagonals `-d, -d+2, …, d` visited by the inner loop at depth `d`. -/
def kList (d : Nat) : List Int :=
  (List.range (d + 1)).map fun (i : Nat) => -(d : Int) + 2 * (i : Int)

/-- The inner `for k` loop, with the `break outer` early exit. -/
def innerK (old new : List String) (maxD d : Int) :
    (Int → Int) → List Int → (Int → Int) × Bool
  | v, [] => (v, false)
  | v, k :: ks =>
    match stepK old new maxD d v k with
    | (v', true) => (v', true)
    | (v', false) => innerK old new maxD d v' ks

/-- The outer `for (let d = 0; d <= max; d++)` loop of `myersDiff`: snapshot
`v` into the trace before each depth, stop as soon as `(n, m)` is reached.
Returns the recorded trace. -/
def outerD (old new : List String) (maxD : Int) :
    (Int → Int) → List (Int → Int) → List Nat → List (Int → Int)
  | _, trace, [] => trace
  | v, trace, d :: ds =>
    match innerK old new maxD (d : Int) v (kList d) with
    | (_, true) => trace ++ [v]
    | (v', false) => outerD old new maxD v' (trace ++ [v]) ds

/-- The backtracking `while (x > prevX && y > prevY)` loop: retraces the
snake, emitting `keep` edits (the script is accumulated in reverse order,
as in the source). -/
def keepsLoop (old : List String) (px py : Int) (x y : Int) (acc : List Edit) :
    Int × Int × List Edit :=
  if px < x ∧ py < y then
    keepsLoop old px py (x - 1) (y - 1) (acc ++ [Edit.keep (jsGetD old (x - 1))])
  else (x, y, acc)
termination_by (x - px).toNat
decreasing_by
  omega

/-- The backtracking `for (let d = trace.length - 1; d >= 0; d--)` loop of
`myersDiff`.  `snaps` is the recorded trace in reverse, so the head is the
snapshot taken before the depth-`d` pass. -/
def backLoop (old new : List String) (maxD : Int) :
    List (Int → Int) → Int → Int → Int → List Edit → List Edit
  | [], _, _, _, acc => acc
  | prev :: rest, d, x, y, acc =>
    let k := x - y
    let kIdx := k + maxD
    let prevK := if k = -d ∨ (k ≠ d ∧ prev (kIdx - 1) < prev (kIdx + 1))
                 then k + 1 else k - 1
    let prevX := prev (prevK + maxD)
    let prevY := prevX - prevK
    match keepsLoop old prevX prevY x y acc with
    | (x', y', acc') =>
      if 0 < d then
        if x' = prevX then
          backLoop old new maxD rest (d - 1) x' (y' - 1)
            (acc' ++ [Edit.insert (jsGetD new (y' - 1))])
        else
          backLoop old new maxD rest (d - 1) (x' - 1) y'
            (acc' ++ [Edit.delete (jsGetD old (x' - 1))])
      else acc'

/-- `myersDiff` (src/slow-mode/index.ts line 1044): the shortest edit script
between two line sequences, by the Myers O((N+M)·D) algorithm with a full
snapshot trace and backtracking. -/
def myersDiff (oldLines newLines : List String) : List Edit :=
  let n : Int := oldLines.length
  let m : Int := newLines.length
  let maxD := n + m
  let trace := outerD oldLines newLines maxD (fun _ => 0) []
    (List.range (maxD.toNat + 1))
  (backLoop oldLines newLines maxD trace.reverse ((trace.length : Int) - 1)
    n m []).reverse

/-- Does the operation keep a line (`edit.type === "keep"`)? -/
def Edit.isKeep : Edit → Bool
  | .keep _ => true
  | _ => false

/-- Does the operation consume a line of the old sequence (keep or delete)? -/
def Edit.inOld : Edit → Bool
  | .keep _ => true
  | .delete _ => true
  | .insert _ => false

/-- Does the operation consume a line of the new sequence (keep or insert)? -/
def Edit.inNew : Edit → Bool
  | .keep _ => true
  | .insert _ => true
  | .delete _ => false

/-- The display line of one edit operation inside a hunk
(`" "`, `"-"`, `"+"` prefix). -/
def Edit.render : Edit → String
  | .keep l => " " ++ l
  | .delete l => "-" ++ l
  | .insert l => "+" ++ l

/-- A hunk in a unified diff (`interface Hunk`). -/
structure Hunk where
  oldStart : Nat
  oldCount : Nat
  newStart : Nat
  newCount : Nat
  lines : List String
deriving Repr, DecidableEq

/-- The `changeIndices` collection loop of `buildHunks`: indices of all
non-keep operations, in order, starting at `i`. -/
def changeIndicesAux : List Edit → Nat → List Nat
  | [], _ => []
  | e :: es, i =>
    if e.isKeep then changeIndicesAux es (i + 1)
    else i :: changeIndicesAux es (i + 1)

/-- Indices of all change operations (insert or delete) in the script. -/
def changeIndices (edits : List Edit) : List Nat := changeIndicesAux edits 0

/-- The grouping loop of `buildHunks`: merge successive change indices whose
gap is `≤ 2 * contextLines`.  (`i - gEnd` is ordinary subtraction in the
source; change indices are strictly increasing, so `Nat` subtraction
agrees.) -/
def buildGroups (c : Nat) : List (Nat × Nat) → Nat → Nat → List Nat → List (Nat × Nat)
  | gs, gStart, gEnd, [] => gs ++ [(gStart, gEnd)]
  | gs, gStart, gEnd, i :: rest =>
    if i - gEnd ≤ 2 * c then buildGroups c gs gStart i rest
    else buildGroups c (gs ++ [(gStart, gEnd)]) i i rest

/-- Turn one change group into a hunk: expand by `contextLines` on both sides
(clamped to the script; `Nat` subtraction is the `Math.max(0, ·)` clamp),
compute the 1-based start lines by counting the old/new-consuming operations
before the hunk, and render the slice. -/
def hunkOfGroup (edits : List Edit) (c : Nat) (g : Nat × Nat) : Hunk :=
  let hunkStart := g.1 - c
  let hunkEnd := min (edits.length - 1) (g.2 + c)
  let pre := edits.take hunkStart
  let slice := (edits.drop hunkStart).take (hunkEnd + 1 - hunkStart)
  { oldStart := 1 + (pre.filter Edit.inOld).length
    oldCount := (slice.filter Edit.inOld).length
    newStart := 1 + (pre.filter Edit.inNew).length
    newCount := (slice.filter Edit.inNew).length
    lines := slice.map Edit.render }

/-- `buildHunks` (src/slow-mode/index.ts line 1152): group the edit script
into unified-diff hunks with context lines. -/
def buildHunks (edits : List Edit) (contextLines : Nat) : List Hunk :=
  if edits.isEmpty then []
  else
    match changeIndices edits with
    | [] => []
    | i :: rest =>
      (buildGroups contextLines [] i i rest).map (hunkOfGroup edits contextLines)

/-- Replaying the Keep and Delete operations of a script, in order: the
lines consumed from the old sequence. -/
def replayOld (e : List Edit) : List String :=
  e.filterMap fun op =>
    match op with
    | .keep l => some l
    | .delete l => some l
    | .insert _ => none

/-- Replaying the Keep and Insert operations of a script, in order: the
lines produced into the new sequence. -/
def replayNew (e : List Edit) : List String :=
  e.filterMap fun op =>
    match op with
    | .keep l => some l
    | .insert l => some l
    | .delete _ => none

/-- Number of Insert plus Delete operations of a script. -/
def editCost (e : List Edit) : Nat := (e.filter fun op => !op.isKeep).length

/-- `text.split("\n")`: no trailing-newline normalisation. -/
def splitLines (s : String) : List String := s.splitOn "\n"

/-- `lines.join("\n")` of JavaScript: newline-separated concatenation. -/
def joinLines : List String → String
  | [] => ""
  | [a] => a
  | a :: rest => a ++ "\n" ++ joinLines rest

/-- The `@@ -oldStart,oldCount +newStart,newCount @@` header of one hunk. -/
def hunkHeader (h : Hunk) : String :=
  "@@ -" ++ toString h.oldStart ++ "," ++ toString h.oldCount ++
    " +" ++ toString h.newStart ++ "," ++ toString h.newCount ++ " @@"

/-- The rendering of one hunk inside a unified diff: the `@@` header line
followed by the prefixed body lines. -/
def renderHunk (h : Hunk) : List String :=
  hunkHeader h :: h.lines

/-- `generateUnifiedDiff`, first variant (src/slow-mode/index.ts line 999):
`--- a/<path>` / `+++ b/<path>` headers, then the rendered hunks. -/
def generateUnifiedDiff (filePath oldText newText : String)
    (contextLines : Nat := 3) : String :=
  let oldLines := splitLines oldText
  let newLines := splitLines newText
  let edits := myersDiff oldLines newLines
  let hunks := buildHunks edits contextLines
  joinLines
    (("--- a/" ++ filePath) :: ("+++ b/" ++ filePath) ::
      (hunks.map renderHunk).flatten)

/-- One record of the `editedCalls` map (src/slow-mode/index.ts line 41):
the original proposed content and the content after an external edit. -/
structure EditRecord where
  original : String
  edited : String
deriving Repr, DecidableEq

/-- The approved branch of `reviewWrite` (src/slow-mode/index.ts lines
198-214): after approval the staged file is read back; when the read-back
content differs from the original, the outbound `input.content` becomes the
read-back text and a substitution record is stored under the tool-call id.
Returns the outbound content and the updated `editedCalls` map. -/
def approveWrite (toolCallId : String) (content editedContent : String)
    (calls : String → Option EditRecord) :
    String × (String → Option EditRecord) :=
  if editedContent ≠ content then
    (editedContent,
      fun k => if k = toolCallId then
        some { original := content, edited := editedContent } else calls k)
  else (content, calls)

/-- `lineDiffText` of the `tool_result` hook (src/slow-mode/index.ts lines
122-130): a signed line-count delta rendered as text. -/
def lineDiffText (r : EditRecord) : String :=
  let d : Int := ((splitLines r.edited).length : Int) -
    ((splitLines r.original).length : Int)
  if 0 < d then "+" ++ toString d ++ " lines"
  else if d < 0 then toString d ++ " lines"
  else "same line count"

/-- The note text appended by the `tool_result` hook (src/slow-mode/index.ts
lines 133-136). -/
def substitutionNote (r : EditRecord) : String :=
  "\n\n**Note:** Content was modified in slow mode review before writing (" ++
    lineDiffText r ++ ")."

/-- The `tool_result` hook (src/slow-mode/index.ts lines 113-141): look up
the substitution record of the tool call; when present, delete it and
append the note to the result content; otherwise change nothing and return
no replacement content. -/
def toolResultHook (toolCallId : String)
    (calls : String → Option EditRecord) (content : List String) :
    (String → Option EditRecord) × Option (List String) :=
  match calls toolCallId with
  | none => (calls, none)
  | some r =>
    (fun k => if k = toolCallId then none else calls k,
      some (content ++ [substitutionNote r]))

/-- A decision returned by `showEditReview` (src/slow-mode/index.ts lines
654-699): approve (Enter), reject (Esc) or edit (Ctrl+E). -/
inductive EditDecision where
  | approve
  | reject
  | edit
deriving Repr, DecidableEq

/-- The review loop of `reviewEdit` (src/slow-mode/index.ts lines 275-304).
Iteration `j` re-reads both staged files — `oldTexts j` and `newTexts j`
are their contents at that point (external edits may change them between
iterations) — regenerates the unified diff from the current contents and
shows it.  `approve`/`reject` break the loop; `edit` opens the editor and
continues.  The result is `none` when the decision list runs out with the
loop still running, otherwise `some` of the approval flag and the diffs
shown so far. -/
def reviewEditLoop (relPath : String) (oldTexts newTexts : Nat → String) :
    Nat → List EditDecision → List String → Option (Bool × List String)
  | _, [], _ => none
  | j, d :: ds, shown =>
    match d with
    | .approve =>
      some (true, shown ++ [generateUnifiedDiff relPath (oldTexts j) (newTexts j)])
    | .reject =>
      some (false, shown ++ [generateUnifiedDiff relPath (oldTexts j) (newTexts j)])
    | .edit =>
      reviewEditLoop relPath oldTexts newTexts (j + 1) ds
        (shown ++ [generateUnifiedDiff relPath (oldTexts j) (newTexts j)])

/-- `writeFileSync` on a staged path: the path now exists.  The staged-file
state is the list of existing staged paths. -/
def stageFile (fs : List String) (p : String) : List String :=
  if p ∈ fs then fs else fs ++ [p]

/-- `cleanup` (src/slow-mode/index.ts line 1248): best-effort `unlinkSync`
that swallows errors, so removing an absent path is a no-op. -/
def cleanupFile (fs : List String) (p : String) : List String := fs.erase p

/-- The staged-file effect of one `reviewWrite` run (src/slow-mode/index.ts
lines 180-217): the staged file is written before the review and cleaned up
after it, on the approve and the reject path alike. -/
def reviewWriteFiles (fs : List String) (stagePath : String) : List String :=
  cleanupFile (stageFile fs stagePath) stagePath

/-- The staged-file effect of one `reviewEdit` run (src/slow-mode/index.ts
lines 262-326): both staged files are written before the loop and cleaned
up after it, whatever the outcome. -/
def reviewEditFiles (fs : List String) (oldPath newPath : String) :
    List String :=
  cleanupFile (cleanupFile (stageFile (stageFile fs oldPath) newPath) oldPath)
    newPath

/-- Is the path `p` under the directory `dir` — does the directory path
prefix it character for character? -/
def underDir (p dir : String) : Bool := dir.data.isPrefixOf p.data

/-- The `session_shutdown` handler (src/slow-mode/index.ts lines 52-59):
`rmSync(tmpDir, {recursive: true})` removes every path under the temporary
root, whatever state a crashed review left behind. -/
def shutdownCleanup (tmpDir : String) (fs : List String) : List String :=
  fs.filter fun p => !(underDir p tmpDir)

/-- `maxScroll` of `showReview` (src/slow-mode/index.ts line 391 and
src/slow-mode.ts line 162): `Math.max(0, bodyLines.length - 5)`. -/
def maxScroll (bodyLen : Nat) : Int := max 0 ((bodyLen : Int) - 5)

/-- `clampScroll` (src/slow-mode/index.ts lines 399-401): clamp an offset
into `[0, maxScroll]`. -/
def clampScroll (m offset : Int) : Int := max 0 (min m offset)

/-- The scroll keys of `handleInput` in src/slow-mode/index.ts (lines
480-527): k/↑ and j/↓ move one line, u/PgUp and d/PgDn move 15 lines,
gg jumps to the top, G jumps to the bottom. -/
inductive ScrollKey where
  | up1
  | down1
  | upHalf
  | downHalf
  | top
  | bottom
deriving Repr, DecidableEq

/-- One scroll key applied to the scroll offset (src/slow-mode/index.ts
lines 480-527): moves go through `clampScroll`, gg writes 0 and G writes
`maxScroll` directly. -/
def scrollStep (m o : Int) : ScrollKey → Int
  | .up1 => clampScroll m (o - 1)
  | .down1 => clampScroll m (o + 1)
  | .upHalf => clampScroll m (o - 15)
  | .downHalf => clampScroll m (o + 15)
  | .top => 0
  | .bottom => m

/-- A sequence of scroll keys folded over the scroll offset. -/
def scrollRun (m o : Int) : List ScrollKey → Int
  | [] => o
  | k :: ks => scrollRun m (scrollStep m o k) ks

/-- The scroll keys of `handleInput` in src/slow-mode.ts (lines 200-219):
↑/↓ move one line, PgUp/PgDn move 20 lines. -/
inductive SimpleScrollKey where
  | up
  | down
  | pageUp
  | pageDown
deriving Repr, DecidableEq

/-- One scroll key of the src/slow-mode.ts review UI. -/
def simpleScrollStep (m o : Int) : SimpleScrollKey → Int
  | .up => clampScroll m (o - 1)
  | .down => clampScroll m (o + 1)
  | .pageUp => clampScroll m (o - 20)
  | .pageDown => clampScroll m (o + 20)

/-- A sequence of src/slow-mode.ts scroll keys folded over the offset. -/
def simpleScrollRun (m o : Int) : List SimpleScrollKey → Int
  | [] => o
  | k :: ks => simpleScrollRun m (simpleScrollStep m o k) ks

/-- JavaScript falsiness of a possibly-missing string value: `undefined`
(here `none`) and the empty string are falsy, every other string is
truthy. -/
def jsFalsy : Option String → Bool
  | none => true
  | some s => s == ""

/-- `value == null` of JavaScript (loose equality): true exactly for
`null`/`undefined`, never for a string — the empty string included. -/
def jsIsNullish : Option String → Bool
  | none => true
  | some _ => false

/-- The outcome of the malformed-input gate at the top of a review handler:
either the call passes through unreviewed, or it proceeds to staging and
review with the given arguments. -/
inductive GateOutcome where
  | passThrough
  | review (args : List String)
deriving Repr, DecidableEq

/-- The gate of `reviewWrite` (src/slow-mode/index.ts lines 172-176):
`if (!filePath || content == null) return;` — the path is tested for
falsiness, the content only against null/undefined. -/
def reviewWriteGate (path content : Option String) : GateOutcome :=
  if jsFalsy path || jsIsNullish content then .passThrough
  else .review [path.getD "", content.getD ""]

/-- The gate of `reviewEdit` (src/slow-mode/index.ts lines 245-251):
`if (!filePath || oldText == null || newText == null) return;`. -/
def reviewEditGate (path oldText newText : Option String) : GateOutcome :=
  if jsFalsy path || jsIsNullish oldText || jsIsNullish newText then
    .passThrough
  else .review [path.getD "", oldText.getD "", newText.getD ""]

/-!
Specification layer for the Myers algorithm: the pure furthest-reach
function `F` of Myers' paper, which the imperative frontier array refines.
-/

/-- A diagonal `k` is meaningful at depth `d` when it has the parity of `d`
and lies in `[-d, d]`. -/
def Valid (d : Nat) (k : Int) : Prop :=
  k % 2 = (d : Int) % 2 ∧ -(d : Int) ≤ k ∧ k ≤ (d : Int)

section SpecDefs

variable (old new : List String) (maxD : Int)

/-- The furthest-reach function of the Myers algorithm: `F d k` is the value
stored in `v[k + max]` at the end of the depth-`d` pass (for diagonals valid
at depth `d`). -/
def F : Nat → Int → Int
  | 0, k => snake old new k 0
  | d + 1, k =>
    snake old new k
      (if k = -((d : Int) + 1) ∨
          (k ≠ (d : Int) + 1 ∧ F d (k - 1) < F d (k + 1))
       then F d (k + 1) else F d (k - 1) + 1)

/-- The x-position from which the depth-`d` snake on diagonal `k` starts
(the position reached by the single down/right move). -/
def startX : Nat → Int → Int
  | 0, _ => 0
  | d + 1, k =>
    if k = -((d : Int) + 1) ∨
        (k ≠ (d : Int) + 1 ∧ F old new d (k - 1) < F old new d (k + 1))
    then F old new d (k + 1) else F old new d (k - 1) + 1

/-- A partial edit script that replays to the first `x` old lines and the
first `y` new lines. -/
def IsTrace (e : List Edit) (x y : Nat) : Prop :=
  replayOld e = old.take x ∧ replayNew e = new.take y ∧
    x ≤ old.length ∧ y ≤ new.length

/-- A script whose replay equals the clamped prefixes `old.take a` /
`new.take b` (coordinates as integers). -/
def TraceTo (e : List Edit) (a b : Int) : Prop :=
  replayOld e = old.take a.toNat ∧ replayNew e = new.take b.toNat

/-- Specification of one trace snapshot: the snapshot taken before the
depth-`i` pass holds the depth-`(i-1)` frontier (and the initial snapshot is
all zeroes). -/
def SnapOK (i : Nat) (w : Int → Int) : Prop :=
  (i = 0 → ∀ j, w j = 0) ∧
    ∀ k, 1 ≤ i → Valid (i - 1) k → w (k + maxD) = F old new (i - 1) k

/-- The break condition of the outer loop fires at depth `d`. -/
def BreakP (d : Nat) : Prop :=
  ∃ k ∈ kList d, (old.length : Int) ≤ F old new d k ∧
    (new.length : Int) ≤ F old new d k - k

end SpecDefs

/-- The keep edits emitted while retracing a snake from `a + t` down to `a`
(in emission order: highest index first). -/
def keepsSeg (old : List String) (a : Int) : Nat → List Edit
  | 0 => []
  | t + 1 => Edit.keep (jsGetD old (a + (t : Int))) :: keepsSeg old a t

theorem valid_zero {k : Int} (h : Valid 0 k) : k = 0 := by
  obtain ⟨h1, h2, h3⟩ := h
  omega

theorem valid_up {d : Nat} {k : Int} (h : Valid (d + 1) k)
    (hk : k ≠ (d : Int) + 1) : Valid d (k + 1) := by
  obtain ⟨h1, h2, h3⟩ := h
  refine ⟨?_, ?_, ?_⟩ <;> push_cast at h1 h3 ⊢ <;> omega

theorem valid_dn {d : Nat} {k : Int} (h : Valid (d + 1) k)
    (hk : k ≠ -((d : Int) + 1)) : Valid d (k - 1) := by
  obtain ⟨h1, h2, h3⟩ := h
  refine ⟨?_, ?_, ?_⟩ <;> push_cast at h1 h2 h3 ⊢ <;> omega

section MyersSpec

variable (old new : List String)

theorem snake_succ {k x : Int}
    (h : x < (old.length : Int) ∧ x - k < (new.length : Int) ∧
      jsGet old x = jsGet new (x - k)) :
    snake old new k x = snake old new k (x + 1) := by
  rw [snake]
  simp [h]

theorem snake_halt {k x : Int}
    (h : ¬(x < (old.length : Int) ∧ x - k < (new.length : Int) ∧
      jsGet old x = jsGet new (x - k))) :
    snake old new k x = x := by
  rw [snake]
  simp [h]

theorem snake_ge (k x : Int) : x ≤ snake old new k x := by
  generalize ht : ((old.length : Int) - x).toNat = t
  induction t using Nat.strong_induction_on generalizing x with
  | _ t ih =>
    rw [snake]
    split
    · next h =>
      have h1 := h.1
      have := ih (((old.length : Int) - (x + 1)).toNat) (by omega) (x + 1) rfl
      omega
    · omega

theorem snake_matches (k x : Int) : ∀ i, x ≤ i → i < snake old new k x →
    i < (old.length : Int) ∧ i - k < (new.length : Int) ∧
      jsGet old i = jsGet new (i - k) := by
  generalize ht : ((old.length : Int) - x).toNat = t
  induction t using Nat.strong_induction_on generalizing x with
  | _ t ih =>
    intro i hxi hi
    rw [snake] at hi
    split at hi
    · next h =>
      have h1 := h.1
      rcases eq_or_lt_of_le hxi with rfl | hlt
      · exact h
      · exact ih (((old.length : Int) - (x + 1)).toNat) (by omega) (x + 1) rfl i
          (by omega) hi
    · omega

theorem snake_stop (k x : Int) :
    ¬(snake old new k x < (old.length : Int) ∧
      snake old new k x - k < (new.length : Int) ∧
      jsGet old (snake old new k x) = jsGet new (snake old new k x - k)) := by
  generalize ht : ((old.length : Int) - x).toNat = t
  induction t using Nat.strong_induction_on generalizing x with
  | _ t ih =>
    rw [snake]
    split
    · next h =>
      have h1 := h.1
      exact ih (((old.length : Int) - (x + 1)).toNat) (by omega) (x + 1) rfl
    · next h => exact h

theorem snake_le_n {k x : Int} (hx : x ≤ (old.length : Int)) :
    snake old new k x ≤ (old.length : Int) := by
  have key : ∀ (t : Nat) (x : Int), ((old.length : Int) - x).toNat = t →
      x ≤ (old.length : Int) → snake old new k x ≤ (old.length : Int) := by
    intro t
    induction t using Nat.strong_induction_on with
    | _ t ih =>
      intro x ht hx
      rw [snake]
      split
      · next h =>
        have h1 := h.1
        exact ih (((old.length : Int) - (x + 1)).toNat) (by omega) (x + 1) rfl
          (by omega)
      · exact hx
  exact key _ x rfl hx

theorem snake_le_m {k x : Int} (hy : x - k ≤ (new.length : Int)) :
    snake old new k x - k ≤ (new.length : Int) := by
  have key : ∀ (t : Nat) (x : Int), ((old.length : Int) - x).toNat = t →
      x - k ≤ (new.length : Int) → snake old new k x - k ≤ (new.length : Int) := by
    intro t
    induction t using Nat.strong_induction_on with
    | _ t ih =>
      intro x ht hy
      rw [snake]
      split
      · next h =>
        have h2 := h.2.1
        have h1 := h.1
        exact ih (((old.length : Int) - (x + 1)).toNat) (by omega) (x + 1) rfl
          (by omega)
      · exact hy
  exact key _ x rfl hy


theorem F_eq_snake : ∀ (d : Nat) (k : Int),
    F old new d k = snake old new k (startX old new d k)
  | 0, _ => rfl
  | _ + 1, _ => rfl

theorem startX_le_F (d : Nat) (k : Int) :
    startX old new d k ≤ F old new d k := by
  rw [F_eq_snake]
  exact snake_ge old new k _

theorem F_not_cond (d : Nat) (k : Int) :
    ¬(F old new d k < (old.length : Int) ∧
      F old new d k - k < (new.length : Int) ∧
      jsGet old (F old new d k) = jsGet new (F old new d k - k)) := by
  rw [F_eq_snake]
  exact snake_stop old new k _

theorem cond_ne_top {d : Nat} {k : Int}
    (hc : k = -((d : Int) + 1) ∨
      (k ≠ (d : Int) + 1 ∧ F old new d (k - 1) < F old new d (k + 1))) :
    k ≠ (d : Int) + 1 := by
  rcases hc with hc | hc
  · omega
  · exact hc.1

theorem F_bounds : ∀ (d : Nat) (k : Int), Valid d k →
    0 ≤ F old new d k ∧ k ≤ F old new d k := by
  intro d
  induction d with
  | zero =>
    intro k hk
    have hk0 := valid_zero hk
    subst hk0
    have := snake_ge old new 0 0
    constructor
    · simpa [F] using this
    · simpa [F] using this
  | succ d ih =>
    intro k hk
    by_cases hc : k = -((d : Int) + 1) ∨
        (k ≠ (d : Int) + 1 ∧ F old new d (k - 1) < F old new d (k + 1))
    · have hk1 : k ≠ (d : Int) + 1 := cond_ne_top old new hc
      have hv : Valid d (k + 1) := valid_up hk hk1
      have hb := ih (k + 1) hv
      have hsx : startX old new (d + 1) k = F old new d (k + 1) := by
        simp only [startX, if_pos hc]
      rw [F_eq_snake, hsx]
      have hs := snake_ge old new k (F old new d (k + 1))
      omega
    · have hk1 : k ≠ -((d : Int) + 1) := by
        intro h
        exact hc (Or.inl h)
      have hv : Valid d (k - 1) := valid_dn hk hk1
      have hb := ih (k - 1) hv
      have hsx : startX old new (d + 1) k = F old new d (k - 1) + 1 := by
        simp only [startX, if_neg hc]
      rw [F_eq_snake, hsx]
      have hs := snake_ge old new k (F old new d (k - 1) + 1)
      omega

theorem F_dom_up {d : Nat} {k : Int} (h : Valid d (k + 1)) :
    F old new d (k + 1) ≤ F old new (d + 1) k := by
  by_cases hc : k = -((d : Int) + 1) ∨
      (k ≠ (d : Int) + 1 ∧ F old new d (k - 1) < F old new d (k + 1))
  · have hsx : startX old new (d + 1) k = F old new d (k + 1) := by
      simp only [startX, if_pos hc]
    rw [F_eq_snake old new (d + 1) k, hsx]
    exact snake_ge old new k _
  · have hk1 : k ≠ (d : Int) + 1 := by
      obtain ⟨h1, h2, h3⟩ := h
      omega
    have hge : F old new d (k + 1) ≤ F old new d (k - 1) := by
      by_contra hlt
      exact hc (Or.inr ⟨hk1, by omega⟩)
    have hsx : startX old new (d + 1) k = F old new d (k - 1) + 1 := by
      simp only [startX, if_neg hc]
    rw [F_eq_snake old new (d + 1) k, hsx]
    have hs := snake_ge old new k (F old new d (k - 1) + 1)
    omega

theorem F_dom_dn {d : Nat} {k : Int} (h : Valid d (k - 1)) :
    F old new d (k - 1) + 1 ≤ F old new (d + 1) k := by
  by_cases hc : k = -((d : Int) + 1) ∨
      (k ≠ (d : Int) + 1 ∧ F old new d (k - 1) < F old new d (k + 1))
  · have hlt : F old new d (k - 1) < F old new d (k + 1) := by
      rcases hc with hc | hc
      · exfalso
        obtain ⟨h1, h2, h3⟩ := h
        omega
      · exact hc.2
    have hsx : startX old new (d + 1) k = F old new d (k + 1) := by
      simp only [startX, if_pos hc]
    rw [F_eq_snake old new (d + 1) k, hsx]
    have hs := snake_ge old new k (F old new d (k + 1))
    omega
  · have hsx : startX old new (d + 1) k = F old new d (k - 1) + 1 := by
      simp only [startX, if_neg hc]
    rw [F_eq_snake old new (d + 1) k, hsx]
    exact snake_ge old new k _

end MyersSpec

/-!
Replay machinery: list helpers, traces of partial edit scripts, and the
completeness half of the Myers correctness argument (no script reaches
further than `F`).
-/

theorem replayOld_append (a b : List Edit) :
    replayOld (a ++ b) = replayOld a ++ replayOld b := by
  simp [replayOld]

theorem replayNew_append (a b : List Edit) :
    replayNew (a ++ b) = replayNew a ++ replayNew b := by
  simp [replayNew]

theorem editCost_append (a b : List Edit) :
    editCost (a ++ b) = editCost a + editCost b := by
  simp [editCost]

theorem editCost_reverse (a : List Edit) : editCost a.reverse = editCost a := by
  simp [editCost]

theorem replayOld_keep (l : String) : replayOld [Edit.keep l] = [l] := rfl

theorem replayNew_keep (l : String) : replayNew [Edit.keep l] = [l] := rfl

theorem take_length_of_le {α : Type} (xs : List α) (p : Nat)
    (h : p ≤ xs.length) : (xs.take p).length = p := by
  simp [h]

theorem take_eq_nil_len {α : Type} (xs : List α) (p : Nat)
    (h : p ≤ xs.length) (he : xs.take p = []) : p = 0 := by
  have := congrArg List.length he
  simp [h] at this
  exact this

theorem take_snoc {α : Type} (xs : List α) (p : Nat) (h : p < xs.length) :
    xs.take (p + 1) = xs.take p ++ [xs.get ⟨p, h⟩] := by
  rw [List.take_succ]
  congr 1
  simp [List.getElem?_eq_getElem h]

theorem take_inv {α : Type} (xs : List α) (p : Nat) (A : List α) (l : α)
    (hp : p ≤ xs.length) (he : xs.take p = A ++ [l]) :
    1 ≤ p ∧ xs.take (p - 1) = A ∧ xs.get? (p - 1) = some l := by
  have hlen := congrArg List.length he
  simp [hp] at hlen
  have hp1 : 1 ≤ p := by omega
  have hlt : p - 1 < xs.length := by omega
  have hs : xs.take p = xs.take (p - 1) ++ [xs.get ⟨p - 1, hlt⟩] := by
    have := take_snoc xs (p - 1) hlt
    rwa [Nat.sub_add_cancel hp1] at this
  rw [hs] at he
  have hA : xs.take (p - 1) = A := by
    have hlen2 : (xs.take (p - 1)).length = A.length := by
      have := take_length_of_le xs (p - 1) (by omega)
      omega
    exact (List.append_inj he hlen2).1
  have hl : xs.get ⟨p - 1, hlt⟩ = l := by
    have := (List.append_inj he (by
      have := take_length_of_le xs (p - 1) (by omega)
      omega)).2
    simpa using this
  refine ⟨hp1, hA, ?_⟩
  rw [List.get?_eq_get hlt, hl]

theorem jsGet_eq_get? (xs : List String) (i : Int) (h : 0 ≤ i) :
    jsGet xs i = xs.get? i.toNat := by
  unfold jsGet
  split
  · next hh => rw [List.get?_eq_get hh.2]
  · next hh =>
    have : ¬ i.toNat < xs.length := by
      intro hc
      exact hh ⟨h, hc⟩
    rw [List.get?_eq_none.2 (by omega)]

section MyersSpec2

variable (old new : List String)


/-- Completeness of the furthest-reach recursion: no edit script of cost `d`
reaches past `F d` on its diagonal. -/
theorem reach_le_F : ∀ (e : List Edit) (x y : Nat), IsTrace old new e x y →
    Valid (editCost e) ((x : Int) - y) ∧
      (x : Int) ≤ F old new (editCost e) ((x : Int) - y) := by
  intro e
  induction e using List.reverseRecOn with
  | nil =>
    intro x y h
    obtain ⟨h1, h2, hx, hy⟩ := h
    have hx0 : x = 0 := take_eq_nil_len old x hx (by simpa [replayOld] using h1.symm)
    have hy0 : y = 0 := take_eq_nil_len new y hy (by simpa [replayNew] using h2.symm)
    subst hx0
    subst hy0
    have hv : Valid 0 0 := ⟨rfl, by omega, by omega⟩
    have := F_bounds old new 0 0 hv
    simpa [editCost] using ⟨hv, this.1⟩
  | append_singleton e op ih =>
    intro x y h
    obtain ⟨h1, h2, hx, hy⟩ := h
    cases op with
    | keep l =>
      rw [replayOld_append, replayOld_keep] at h1
      rw [replayNew_append, replayNew_keep] at h2
      obtain ⟨hx1, hA, hl⟩ := take_inv old x _ l hx h1.symm
      obtain ⟨hy1, hB, hl2⟩ := take_inv new y _ l hy h2.symm
      have ih2 := ih (x - 1) (y - 1) ⟨hA.symm, hB.symm, by omega, by omega⟩
      have hc : editCost (e ++ [Edit.keep l]) = editCost e := by
        simp [editCost_append, editCost, Edit.isKeep]
      rw [hc]
      have hk : ((x - 1 : Nat) : Int) - ((y - 1 : Nat) : Int) = (x : Int) - y := by
        omega
      rw [hk] at ih2
      refine ⟨ih2.1, ?_⟩
      rcases lt_or_eq_of_le ih2.2 with hlt | heq
      · omega
      · exfalso
        apply F_not_cond old new (editCost e) ((x : Int) - y)
        rw [← heq]
        have e1 : ((x - 1 : Nat) : Int) < (old.length : Int) := by omega
        have e2 : ((x - 1 : Nat) : Int) - ((x : Int) - y) = ((y - 1 : Nat) : Int) := by
          omega
        refine ⟨e1, by omega, ?_⟩
        rw [e2]
        rw [jsGet_eq_get? old _ (by omega), jsGet_eq_get? new _ (by omega)]
        have tx : ((x - 1 : Nat) : Int).toNat = x - 1 := by omega
        have ty : ((y - 1 : Nat) : Int).toNat = y - 1 := by omega
        rw [tx, ty, hl, hl2]
    | insert l =>
      rw [replayOld_append] at h1
      rw [replayNew_append] at h2
      simp only [replayOld, List.filterMap] at h1
      simp only [replayNew, List.filterMap] at h2
      have h1' : replayOld e = old.take x := by simpa [replayOld] using h1
      have h2' : replayNew e ++ [l] = new.take y := by simpa [replayNew] using h2
      obtain ⟨hy1, hB, hl2⟩ := take_inv new y _ l hy h2'.symm
      have ih2 := ih x (y - 1) ⟨h1', hB.symm, hx, by omega⟩
      have hc : editCost (e ++ [Edit.insert l]) = editCost e + 1 := by
        simp [editCost_append, editCost, Edit.isKeep]
      rw [hc]
      have hk : ((x : Int) - ((y - 1 : Nat) : Int)) = ((x : Int) - y) + 1 := by
        omega
      rw [hk] at ih2
      obtain ⟨hv, hle⟩ := ih2
      have hv2 : Valid (editCost e + 1) ((x : Int) - y) := by
        obtain ⟨p1, p2, p3⟩ := hv
        refine ⟨?_, ?_, ?_⟩ <;> push_cast at p1 p2 p3 ⊢ <;> omega
      exact ⟨hv2, le_trans hle (F_dom_up old new hv)⟩
    | delete l =>
      rw [replayOld_append] at h1
      rw [replayNew_append] at h2
      have h1' : replayOld e ++ [l] = old.take x := by simpa [replayOld] using h1
      have h2' : replayNew e = new.take y := by simpa [replayNew] using h2
      obtain ⟨hx1, hA, hl⟩ := take_inv old x _ l hx h1'.symm
      have ih2 := ih (x - 1) y ⟨hA.symm, h2', by omega, hy⟩
      have hc : editCost (e ++ [Edit.delete l]) = editCost e + 1 := by
        simp [editCost_append, editCost, Edit.isKeep]
      rw [hc]
      have hk : (((x - 1 : Nat) : Int) - (y : Int)) = ((x : Int) - y) - 1 := by
        omega
      rw [hk] at ih2
      obtain ⟨hv, hle⟩ := ih2
      have hv2 : Valid (editCost e + 1) ((x : Int) - y) := by
        obtain ⟨p1, p2, p3⟩ := hv
        refine ⟨?_, ?_, ?_⟩ <;> push_cast at p1 p2 p3 ⊢ <;> omega
      refine ⟨hv2, ?_⟩
      have := F_dom_dn old new hv
      omega

theorem replayOld_cons_keep (l : String) (e : List Edit) :
    replayOld (Edit.keep l :: e) = l :: replayOld e := by
  simp [replayOld, List.filterMap_cons]

theorem replayOld_cons_delete (l : String) (e : List Edit) :
    replayOld (Edit.delete l :: e) = l :: replayOld e := by
  simp [replayOld, List.filterMap_cons]

theorem replayOld_cons_insert (l : String) (e : List Edit) :
    replayOld (Edit.insert l :: e) = replayOld e := by
  simp [replayOld, List.filterMap_cons]

theorem replayNew_cons_keep (l : String) (e : List Edit) :
    replayNew (Edit.keep l :: e) = l :: replayNew e := by
  simp [replayNew, List.filterMap_cons]

theorem replayNew_cons_insert (l : String) (e : List Edit) :
    replayNew (Edit.insert l :: e) = l :: replayNew e := by
  simp [replayNew, List.filterMap_cons]

theorem replayNew_cons_delete (l : String) (e : List Edit) :
    replayNew (Edit.delete l :: e) = replayNew e := by
  simp [replayNew, List.filterMap_cons]

theorem replayOld_map_delete (l : List String) :
    replayOld (l.map Edit.delete) = l := by
  induction l with
  | nil => rfl
  | cons a t ih => rw [List.map_cons, replayOld_cons_delete, ih]

theorem replayOld_map_insert (l : List String) :
    replayOld (l.map Edit.insert) = [] := by
  induction l with
  | nil => rfl
  | cons a t ih => rw [List.map_cons, replayOld_cons_insert, ih]

theorem replayNew_map_insert (l : List String) :
    replayNew (l.map Edit.insert) = l := by
  induction l with
  | nil => rfl
  | cons a t ih => rw [List.map_cons, replayNew_cons_insert, ih]

theorem replayNew_map_delete (l : List String) :
    replayNew (l.map Edit.delete) = [] := by
  induction l with
  | nil => rfl
  | cons a t ih => rw [List.map_cons, replayNew_cons_delete, ih]

theorem replayOld_map_keep (l : List String) :
    replayOld (l.map Edit.keep) = l := by
  induction l with
  | nil => rfl
  | cons a t ih => rw [List.map_cons, replayOld_cons_keep, ih]

theorem replayNew_map_keep (l : List String) :
    replayNew (l.map Edit.keep) = l := by
  induction l with
  | nil => rfl
  | cons a t ih => rw [List.map_cons, replayNew_cons_keep, ih]

/-- The canonical script (delete every old line, insert every new line)
shows that a full trace always exists, with cost `n + m`. -/
theorem canonical_trace :
    IsTrace old new (old.map Edit.delete ++ new.map Edit.insert)
      old.length new.length := by
  refine ⟨?_, ?_, le_refl _, le_refl _⟩
  · rw [replayOld_append, replayOld_map_delete, replayOld_map_insert,
      List.append_nil, List.take_length]
  · rw [replayNew_append, replayNew_map_delete, replayNew_map_insert,
      List.nil_append, List.take_length]

theorem editCost_map_delete (l : List String) :
    editCost (l.map Edit.delete) = l.length := by
  induction l with
  | nil => rfl
  | cons a t ih =>
    have : Edit.delete a :: t.map Edit.delete =
        [Edit.delete a] ++ t.map Edit.delete := rfl
    simp only [List.map_cons, this, editCost_append, ih, List.length_cons]
    have h1 : editCost [Edit.delete a] = 1 := rfl
    omega

theorem editCost_map_insert (l : List String) :
    editCost (l.map Edit.insert) = l.length := by
  induction l with
  | nil => rfl
  | cons a t ih =>
    have : Edit.insert a :: t.map Edit.insert =
        [Edit.insert a] ++ t.map Edit.insert := rfl
    simp only [List.map_cons, this, editCost_append, ih, List.length_cons]
    have h1 : editCost [Edit.insert a] = 1 := rfl
    omega

theorem editCost_canonical :
    editCost (old.map Edit.delete ++ new.map Edit.insert) =
      old.length + new.length := by
  rw [editCost_append, editCost_map_delete, editCost_map_insert]

end MyersSpec2

/-!
Soundness: from the furthest reach `F d k` one can actually build an edit
script of cost at most `d`, clamped to the grid.
-/

theorem jsGet_pos (xs : List String) (i : Int) (h0 : 0 ≤ i)
    (h1 : i.toNat < xs.length) : jsGet xs i = some (xs.get ⟨i.toNat, h1⟩) := by
  unfold jsGet
  rw [dif_pos ⟨h0, h1⟩]

theorem jsGet_some {xs : List String} {i : Int} {l : String}
    (h : jsGet xs i = some l) :
    0 ≤ i ∧ ∃ hh : i.toNat < xs.length, xs.get ⟨i.toNat, hh⟩ = l := by
  unfold jsGet at h
  split at h
  · next hh =>
    exact ⟨hh.1, hh.2, by injection h⟩
  · exact absurd h (by simp)

theorem jsGetD_eq_get (xs : List String) (i : Int) (h0 : 0 ≤ i)
    (h1 : i.toNat < xs.length) : jsGetD xs i = xs.get ⟨i.toNat, h1⟩ := by
  unfold jsGetD
  rw [jsGet_pos xs i h0 h1]
  rfl

section MyersSound

variable (old new : List String)


theorem traceTo_nil : TraceTo old new [] 0 0 := ⟨rfl, rfl⟩

theorem traceTo_insert {e : List Edit} {a b : Int}
    (h : TraceTo old new e a b) (hb0 : 0 ≤ b) (hbm : b < (new.length : Int)) :
    TraceTo old new (e ++ [Edit.insert (jsGetD new b)]) a (b + 1) := by
  obtain ⟨h1, h2⟩ := h
  have hlt : b.toNat < new.length := by omega
  constructor
  · rw [replayOld_append, h1]
    simp [replayOld]
  · rw [replayNew_append, h2]
    have : replayNew [Edit.insert (jsGetD new b)] = [jsGetD new b] := rfl
    rw [this, jsGetD_eq_get new b hb0 hlt]
    have hb1 : (b + 1).toNat = b.toNat + 1 := by omega
    rw [hb1, take_snoc new b.toNat hlt]

theorem traceTo_delete {e : List Edit} {a b : Int}
    (h : TraceTo old new e a b) (ha0 : 0 ≤ a) (han : a < (old.length : Int)) :
    TraceTo old new (e ++ [Edit.delete (jsGetD old a)]) (a + 1) b := by
  obtain ⟨h1, h2⟩ := h
  have hlt : a.toNat < old.length := by omega
  constructor
  · rw [replayOld_append, h1]
    have : replayOld [Edit.delete (jsGetD old a)] = [jsGetD old a] := rfl
    rw [this, jsGetD_eq_get old a ha0 hlt]
    have ha1 : (a + 1).toNat = a.toNat + 1 := by omega
    rw [ha1, take_snoc old a.toNat hlt]
  · rw [replayNew_append, h2]
    simp [replayNew]

theorem editCost_insert_snoc (e : List Edit) (l : String) :
    editCost (e ++ [Edit.insert l]) = editCost e + 1 := by
  simp [editCost_append, editCost, Edit.isKeep]

theorem editCost_delete_snoc (e : List Edit) (l : String) :
    editCost (e ++ [Edit.delete l]) = editCost e + 1 := by
  simp [editCost_append, editCost, Edit.isKeep]

theorem editCost_keep_snoc (e : List Edit) (l : String) :
    editCost (e ++ [Edit.keep l]) = editCost e := by
  simp [editCost_append, editCost, Edit.isKeep]

/-- Extending a clamped trace along a run of matching diagonal positions. -/
theorem traceTo_keeps (k x : Int) : ∀ (t : Nat) (e : List Edit) (a : Int),
    (x - a).toNat = t → a ≤ x → 0 ≤ a →
    TraceTo old new e a (a - k) →
    (∀ i : Int, a ≤ i → i < x →
      i < (old.length : Int) ∧ i - k < (new.length : Int) ∧
        jsGet old i = jsGet new (i - k)) →
    ∃ e', TraceTo old new e' x (x - k) ∧ editCost e' = editCost e := by
  intro t
  induction t with
  | zero =>
    intro e a ht hax ha0 h _
    have hxa : x = a := by omega
    subst hxa
    exact ⟨e, h, rfl⟩
  | succ t ih =>
    intro e a ht hax ha0 h hm
    have hax2 : a < x := by omega
    have hmat := hm a (le_refl a) hax2
    obtain ⟨han, hakm, heq⟩ := hmat
    have hsome := jsGet_pos old a ha0 (by omega)
    have hnew : jsGet new (a - k) = some (old.get ⟨a.toNat, by omega⟩) := by
      rw [← heq, hsome]
    obtain ⟨hak0, hh, hget⟩ := jsGet_some hnew
    have e1 : TraceTo old new (e ++ [Edit.keep (jsGetD old a)]) (a + 1) (a + 1 - k) := by
      obtain ⟨h1, h2⟩ := h
      constructor
      · rw [replayOld_append, h1]
        have hr : replayOld [Edit.keep (jsGetD old a)] = [jsGetD old a] := rfl
        rw [hr, jsGetD_eq_get old a ha0 (by omega)]
        have ha1 : (a + 1).toNat = a.toNat + 1 := by omega
        rw [ha1, take_snoc old a.toNat (by omega)]
      · rw [replayNew_append, h2]
        have hr : replayNew [Edit.keep (jsGetD old a)] = [jsGetD old a] := rfl
        rw [hr, jsGetD_eq_get old a ha0 (by omega)]
        have ha1 : (a + 1 - k).toNat = (a - k).toNat + 1 := by omega
        rw [ha1, take_snoc new (a - k).toNat (by omega)]
        congr 1
        congr 1
        exact hget.symm
    have hrec := ih (e ++ [Edit.keep (jsGetD old a)]) (a + 1) (by omega) (by omega)
      (by omega) e1 (by
        intro i hi1 hi2
        exact hm i (by omega) hi2)
    obtain ⟨e', he', hc⟩ := hrec
    exact ⟨e', he', by rw [hc, editCost_keep_snoc]⟩

/-- Soundness of the furthest reach: its grid-clamped position is realised
by an actual edit script of cost at most `d`. -/
theorem F_sound : ∀ (d : Nat) (k : Int), Valid d k →
    ∃ e : List Edit, editCost e ≤ d ∧
      TraceTo old new e (min (F old new d k) (old.length : Int))
        (min (F old new d k - k) (new.length : Int)) := by
  intro d
  induction d with
  | zero =>
    intro k hk
    have hk0 := valid_zero hk
    subst hk0
    have hF : F old new 0 0 = snake old new 0 0 := rfl
    have hFn : F old new 0 0 ≤ (old.length : Int) := by
      rw [hF]
      exact snake_le_n old new (by omega)
    have hFm : F old new 0 0 - 0 ≤ (new.length : Int) := by
      rw [hF]
      exact snake_le_m old new (by omega)
    have hF0 : (0 : Int) ≤ F old new 0 0 := (F_bounds old new 0 0 hk).1
    obtain ⟨e', he', hc⟩ := traceTo_keeps old new 0 (F old new 0 0)
      ((F old new 0 0 - 0).toNat) [] 0 rfl (by omega) (by omega)
      (by simpa using traceTo_nil old new)
      (by
        intro i hi1 hi2
        exact snake_matches old new 0 0 i hi1 (by rw [← hF]; exact hi2))
    refine ⟨e', ?_, ?_⟩
    · have hc0 : editCost ([] : List Edit) = 0 := rfl
      omega
    · rw [min_eq_left hFn, min_eq_left hFm]
      exact he'
  | succ d ih =>
    intro k hk
    by_cases hc : k = -((d : Int) + 1) ∨
        (k ≠ (d : Int) + 1 ∧ F old new d (k - 1) < F old new d (k + 1))
    · -- down move: start of the snake is F d (k+1)
      have hk1 : k ≠ (d : Int) + 1 := cond_ne_top old new hc
      have hv : Valid d (k + 1) := valid_up hk hk1
      obtain ⟨e₀, hc₀, ht₀⟩ := ih (k + 1) hv
      have hFpb := F_bounds old new d (k + 1) hv
      have hsx : startX old new (d + 1) k = F old new d (k + 1) := by
        simp only [startX, if_pos hc]
      have hFsnake : F old new (d + 1) k = snake old new k (F old new d (k + 1)) := by
        rw [F_eq_snake, hsx]
      by_cases hgrid : F old new d (k + 1) < (old.length : Int) ∧
          F old new d (k + 1) - k < (new.length : Int)
      · have hminx : min (F old new d (k + 1)) (old.length : Int) =
            F old new d (k + 1) := min_eq_left (by omega)
        have hminy : min (F old new d (k + 1) - (k + 1)) (new.length : Int) =
            F old new d (k + 1) - (k + 1) := min_eq_left (by omega)
        rw [hminx, hminy] at ht₀
        have hins := traceTo_insert old new ht₀ (by omega) (by omega)
        have harr : F old new d (k + 1) - (k + 1) + 1 = F old new d (k + 1) - k := by
          ring
        rw [harr] at hins
        have hax : F old new d (k + 1) ≤ F old new (d + 1) k := by
          rw [hFsnake]
          exact snake_ge old new k _
        obtain ⟨e', he', hcost⟩ := traceTo_keeps old new k (F old new (d + 1) k)
          ((F old new (d + 1) k - F old new d (k + 1)).toNat) _
          (F old new d (k + 1)) rfl hax (by omega) hins
          (by
            intro i hi1 hi2
            exact snake_matches old new k (F old new d (k + 1)) i hi1
              (by rw [← hFsnake]; exact hi2))
        refine ⟨e', ?_, ?_⟩
        · rw [hcost, editCost_insert_snoc]
          omega
        · have h1 : F old new (d + 1) k ≤ (old.length : Int) := by
            rw [hFsnake]
            exact snake_le_n old new (by omega)
          have h2 : F old new (d + 1) k - k ≤ (new.length : Int) := by
            rw [hFsnake]
            exact snake_le_m old new (by omega)
          rw [min_eq_left h1, min_eq_left h2]
          exact he'
      · have hstall : F old new (d + 1) k = F old new d (k + 1) := by
          rw [hFsnake]
          apply snake_halt
          intro hcc
          exact hgrid ⟨hcc.1, hcc.2.1⟩
        rw [hstall]
        by_cases hym : (new.length : Int) ≤ F old new d (k + 1) - (k + 1)
        · have hm1 : min (F old new d (k + 1) - (k + 1)) (new.length : Int) =
              (new.length : Int) := min_eq_right hym
          have hm2 : min (F old new d (k + 1) - k) (new.length : Int) =
              (new.length : Int) := min_eq_right (by omega)
          rw [hm1] at ht₀
          rw [hm2]
          exact ⟨e₀, by omega, ht₀⟩
        · push_neg at hym
          have hm1 : min (F old new d (k + 1) - (k + 1)) (new.length : Int) =
              F old new d (k + 1) - (k + 1) := min_eq_left (by omega)
          rw [hm1] at ht₀
          have hins := traceTo_insert old new ht₀ (by omega) (by omega)
          have harr : F old new d (k + 1) - (k + 1) + 1 = F old new d (k + 1) - k := by
            ring
          rw [harr] at hins
          have hm2 : min (F old new d (k + 1) - k) (new.length : Int) =
              F old new d (k + 1) - k := min_eq_left (by omega)
          rw [hm2]
          exact ⟨_, by rw [editCost_insert_snoc]; omega, hins⟩
    · -- right move: start of the snake is F d (k-1) + 1
      have hk1 : k ≠ -((d : Int) + 1) := fun h => hc (Or.inl h)
      have hv : Valid d (k - 1) := valid_dn hk hk1
      obtain ⟨e₀, hc₀, ht₀⟩ := ih (k - 1) hv
      have hFpb := F_bounds old new d (k - 1) hv
      have hsx : startX old new (d + 1) k = F old new d (k - 1) + 1 := by
        simp only [startX, if_neg hc]
      have hFsnake : F old new (d + 1) k =
          snake old new k (F old new d (k - 1) + 1) := by
        rw [F_eq_snake, hsx]
      have harr : F old new d (k - 1) - (k - 1) = F old new d (k - 1) + 1 - k := by
        ring
      by_cases hgrid : F old new d (k - 1) + 1 < (old.length : Int) ∧
          F old new d (k - 1) + 1 - k < (new.length : Int)
      · have hminx : min (F old new d (k - 1)) (old.length : Int) =
            F old new d (k - 1) := min_eq_left (by omega)
        have hminy : min (F old new d (k - 1) - (k - 1)) (new.length : Int) =
            F old new d (k - 1) - (k - 1) := min_eq_left (by omega)
        rw [hminx, hminy] at ht₀
        have hdel := traceTo_delete old new ht₀ (by omega) (by omega)
        rw [harr] at hdel
        have hax : F old new d (k - 1) + 1 ≤ F old new (d + 1) k := by
          rw [hFsnake]
          exact snake_ge old new k _
        obtain ⟨e', he', hcost⟩ := traceTo_keeps old new k (F old new (d + 1) k)
          ((F old new (d + 1) k - (F old new d (k - 1) + 1)).toNat) _
          (F old new d (k - 1) + 1) rfl hax (by omega) hdel
          (by
            intro i hi1 hi2
            exact snake_matches old new k (F old new d (k - 1) + 1) i hi1
              (by rw [← hFsnake]; exact hi2))
        refine ⟨e', ?_, ?_⟩
        · rw [hcost, editCost_delete_snoc]
          omega
        · have h1 : F old new (d + 1) k ≤ (old.length : Int) := by
            rw [hFsnake]
            exact snake_le_n old new (by omega)
          have h2 : F old new (d + 1) k - k ≤ (new.length : Int) := by
            rw [hFsnake]
            exact snake_le_m old new (by omega)
          rw [min_eq_left h1, min_eq_left h2]
          exact he'
      · have hstall : F old new (d + 1) k = F old new d (k - 1) + 1 := by
          rw [hFsnake]
          apply snake_halt
          intro hcc
          exact hgrid ⟨hcc.1, hcc.2.1⟩
        rw [hstall]
        by_cases hxn : (old.length : Int) ≤ F old new d (k - 1)
        · have hm1 : min (F old new d (k - 1)) (old.length : Int) =
              (old.length : Int) := min_eq_right hxn
          have hm2 : min (F old new d (k - 1) + 1) (old.length : Int) =
              (old.length : Int) := min_eq_right (by omega)
          rw [hm1] at ht₀
          rw [hm2, ← harr]
          exact ⟨e₀, by omega, ht₀⟩
        · push_neg at hxn
          have hm1 : min (F old new d (k - 1)) (old.length : Int) =
              F old new d (k - 1) := min_eq_left (by omega)
          rw [hm1] at ht₀
          have hdel := traceTo_delete old new ht₀ (by omega) (by omega)
          have hm2 : min (F old new d (k - 1) + 1) (old.length : Int) =
              F old new d (k - 1) + 1 := min_eq_left (by omega)
          rw [hm2, ← harr]
          exact ⟨_, by rw [editCost_delete_snoc]; omega, hdel⟩

end MyersSound

/-!
Refinement: the imperative frontier loops of `myersDiff` compute `F`.
-/

section MyersRefine

variable (old new : List String) (maxD : Int)

theorem stepK_fst (dI : Int) (v : Int → Int) (k : Int) :
    ∀ j, (stepK old new maxD dI v k).1 j =
      if j = k + maxD then
        snake old new k
          (if k = -dI ∨ (k ≠ dI ∧ v (k + maxD - 1) < v (k + maxD + 1))
           then v (k + maxD + 1) else v (k + maxD - 1) + 1)
      else v j :=
  fun _ => rfl

theorem stepK_snd (dI : Int) (v : Int → Int) (k : Int) :
    (stepK old new maxD dI v k).2 =
      decide ((old.length : Int) ≤
          snake old new k
            (if k = -dI ∨ (k ≠ dI ∧ v (k + maxD - 1) < v (k + maxD + 1))
             then v (k + maxD + 1) else v (k + maxD - 1) + 1) ∧
        (new.length : Int) ≤
          snake old new k
            (if k = -dI ∨ (k ≠ dI ∧ v (k + maxD - 1) < v (k + maxD + 1))
             then v (k + maxD + 1) else v (k + maxD - 1) + 1) - k) :=
  rfl

theorem startX_read (d : Nat) (v : Int → Int) (k : Int) (hv : Valid (d + 1) k)
    (hread : ∀ k', Valid d k' → v (k' + maxD) = F old new d k') :
    (if k = -((d : Int) + 1) ∨
        (k ≠ (d : Int) + 1 ∧ v (k + maxD - 1) < v (k + maxD + 1))
     then v (k + maxD + 1) else v (k + maxD - 1) + 1) =
      startX old new (d + 1) k := by
  have e1 : k + maxD - 1 = (k - 1) + maxD := by ring
  have e2 : k + maxD + 1 = (k + 1) + maxD := by ring
  rw [e1, e2]
  by_cases hbot : k = -((d : Int) + 1)
  · rw [if_pos (Or.inl hbot)]
    have h1 : Valid d (k + 1) := valid_up hv (by omega)
    have hsx : startX old new (d + 1) k = F old new d (k + 1) := by
      simp only [startX, if_pos (Or.inl hbot)]
    rw [hsx]
    exact hread (k + 1) h1
  · by_cases htop : k = (d : Int) + 1
    · have hnotc : ¬(k = -((d : Int) + 1) ∨
          (k ≠ (d : Int) + 1 ∧ v ((k - 1) + maxD) < v ((k + 1) + maxD))) := by
        intro h
        rcases h with h | h
        · exact hbot h
        · exact h.1 htop
      have hnotc2 : ¬(k = -((d : Int) + 1) ∨
          (k ≠ (d : Int) + 1 ∧ F old new d (k - 1) < F old new d (k + 1))) := by
        intro h
        rcases h with h | h
        · exact hbot h
        · exact h.1 htop
      rw [if_neg hnotc]
      simp only [startX, if_neg hnotc2]
      rw [hread (k - 1) (valid_dn hv hbot)]
    · rw [hread (k - 1) (valid_dn hv hbot), hread (k + 1) (valid_up hv htop)]
      simp only [startX]

theorem stepK_spec (d : Nat) (v : Int → Int) (k : Int) (hv : Valid (d + 1) k)
    (hread : ∀ k', Valid d k' → v (k' + maxD) = F old new d k') :
    ((stepK old new maxD ((d : Int) + 1) v k).2 =
      decide ((old.length : Int) ≤ F old new (d + 1) k ∧
        (new.length : Int) ≤ F old new (d + 1) k - k)) ∧
    ∀ j, (stepK old new maxD ((d : Int) + 1) v k).1 j =
      if j = k + maxD then F old new (d + 1) k else v j := by
  have hsx := startX_read old new maxD d v k hv hread
  have hF : snake old new k
      (if k = -((d : Int) + 1) ∨
          (k ≠ (d : Int) + 1 ∧ v (k + maxD - 1) < v (k + maxD + 1))
       then v (k + maxD + 1) else v (k + maxD - 1) + 1) =
      F old new (d + 1) k := by
    rw [hsx, ← F_eq_snake]
  constructor
  · rw [stepK_snd, hF]
  · intro j
    rw [stepK_fst, hF]

theorem stepK0_spec (v : Int → Int) (hv : ∀ j, v j = 0) :
    ((stepK old new maxD 0 v 0).2 =
      decide ((old.length : Int) ≤ F old new 0 0 ∧
        (new.length : Int) ≤ F old new 0 0 - 0)) ∧
    ∀ j, (stepK old new maxD 0 v 0).1 j =
      if j = 0 + maxD then F old new 0 0 else v j := by
  have hc : ((0 : Int) = -0 ∨ ((0 : Int) ≠ 0 ∧
      v (0 + maxD - 1) < v (0 + maxD + 1))) := Or.inl (by norm_num)
  have hF : snake old new 0
      (if (0 : Int) = -0 ∨ ((0 : Int) ≠ 0 ∧
          v (0 + maxD - 1) < v (0 + maxD + 1))
       then v (0 + maxD + 1) else v (0 + maxD - 1) + 1) =
      F old new 0 0 := by
    rw [if_pos hc, hv]
    rfl
  constructor
  · rw [stepK_snd, hF]
  · intro j
    rw [stepK_fst, hF]

theorem kList_mem (d : Nat) (k : Int) : k ∈ kList d ↔ Valid d k := by
  constructor
  · intro hk
    obtain ⟨i, hi, hik⟩ := List.mem_map.1 hk
    have hi' := List.mem_range.1 hi
    subst hik
    refine ⟨?_, ?_, ?_⟩ <;> omega
  · rintro ⟨h1, h2, h3⟩
    apply List.mem_map.2
    refine ⟨(k + (d : Int)).toNat / 2, List.mem_range.2 (by omega), by omega⟩

theorem kList_pairwise (d : Nat) : (kList d).Pairwise (· ≠ ·) := by
  unfold kList
  rw [List.pairwise_map]
  have hpl := List.pairwise_lt_range (d + 1)
  refine hpl.imp ?_
  intro a b hab
  intro hcontra
  omega

end MyersRefine

section MyersLoop

variable (old new : List String) (maxD : Int)


theorem innerK_spec (d : Nat) : ∀ (ks : List Int) (v : Int → Int),
    (∀ k' ∈ ks, Valid (d + 1) k') → ks.Pairwise (· ≠ ·) →
    (∀ k', Valid d k' → v (k' + maxD) = F old new d k') →
    (((innerK old new maxD ((d : Int) + 1) v ks).2 = true) ↔
      ∃ k ∈ ks, (old.length : Int) ≤ F old new (d + 1) k ∧
        (new.length : Int) ≤ F old new (d + 1) k - k) ∧
    ((innerK old new maxD ((d : Int) + 1) v ks).2 = false →
      (∀ k', Valid d k' →
        (innerK old new maxD ((d : Int) + 1) v ks).1 (k' + maxD) =
          F old new d k') ∧
      (∀ k' ∈ ks,
        (innerK old new maxD ((d : Int) + 1) v ks).1 (k' + maxD) =
          F old new (d + 1) k') ∧
      (∀ j, (∀ k' ∈ ks, j ≠ k' + maxD) →
        (innerK old new maxD ((d : Int) + 1) v ks).1 j = v j)) := by
  intro ks
  induction ks with
  | nil =>
    intro v _ _ hread
    refine ⟨by simp [innerK], ?_⟩
    intro _
    exact ⟨hread, by simp, fun j _ => rfl⟩
  | cons k ks ih =>
    intro v hval hpw hread
    rw [List.pairwise_cons] at hpw
    obtain ⟨hhead, htail⟩ := hpw
    have hvk : Valid (d + 1) k := hval k (List.mem_cons_self _ _)
    obtain ⟨hstep2, hstep1⟩ := stepK_spec old new maxD d v k hvk hread
    have hpair : stepK old new maxD ((d : Int) + 1) v k =
        ((fun j => if j = k + maxD then F old new (d + 1) k else v j),
          decide ((old.length : Int) ≤ F old new (d + 1) k ∧
            (new.length : Int) ≤ F old new (d + 1) k - k)) :=
      Prod.ext (funext hstep1) hstep2
    by_cases hbrk : (old.length : Int) ≤ F old new (d + 1) k ∧
        (new.length : Int) ≤ F old new (d + 1) k - k
    · have hd : decide ((old.length : Int) ≤ F old new (d + 1) k ∧
          (new.length : Int) ≤ F old new (d + 1) k - k) = true :=
        decide_eq_true hbrk
      have hred : innerK old new maxD ((d : Int) + 1) v (k :: ks) =
          ((fun j => if j = k + maxD then F old new (d + 1) k else v j), true) := by
        simp only [innerK]
        rw [hpair, hd]
      rw [hred]
      constructor
      · simp only [true_iff]
        exact ⟨k, List.mem_cons_self _ _, hbrk⟩
      · intro hfalse
        exact absurd hfalse (by simp)
    · have hd : decide ((old.length : Int) ≤ F old new (d + 1) k ∧
          (new.length : Int) ≤ F old new (d + 1) k - k) = false :=
        decide_eq_false hbrk
      have hred : innerK old new maxD ((d : Int) + 1) v (k :: ks) =
          innerK old new maxD ((d : Int) + 1)
            (fun j => if j = k + maxD then F old new (d + 1) k else v j) ks := by
        simp only [innerK]
        rw [hpair, hd]
      have hread' : ∀ k', Valid d k' →
          (fun j => if j = k + maxD then F old new (d + 1) k else v j) (k' + maxD) =
            F old new d k' := by
        intro k' hk'
        have hne : k' + maxD ≠ k + maxD := by
          intro he
          have hkk : k' = k := by omega
          subst hkk
          obtain ⟨p1, _, _⟩ := hk'
          obtain ⟨q1, _, _⟩ := hvk
          push_cast at q1
          omega
        simp only [if_neg hne]
        exact hread k' hk'
      have hks := ih (fun j => if j = k + maxD then F old new (d + 1) k else v j)
        (fun a ha => hval a (List.mem_cons_of_mem _ ha)) htail hread'
      rw [hred]
      constructor
      · rw [hks.1]
        constructor
        · rintro ⟨a, ha, hp⟩
          exact ⟨a, List.mem_cons_of_mem _ ha, hp⟩
        · rintro ⟨a, ha, hp⟩
          rcases List.mem_cons.1 ha with rfl | ha'
          · exact absurd hp hbrk
          · exact ⟨a, ha', hp⟩
      · intro hfalse
        obtain ⟨c1, c2, c3⟩ := hks.2 hfalse
        refine ⟨c1, ?_, ?_⟩
        · intro a ha
          rcases List.mem_cons.1 ha with rfl | ha'
          · have hnm : ∀ k' ∈ ks, a + maxD ≠ k' + maxD := by
              intro k' hk' he
              have : a = k' := by omega
              exact (hhead k' hk') this
            rw [c3 (a + maxD) hnm]
            simp
          · exact c2 a ha'
        · intro j hj
          rw [c3 j (fun k' hk' => hj k' (List.mem_cons_of_mem _ hk'))]
          simp only [if_neg (hj k (List.mem_cons_self _ _))]

theorem innerK0_spec (v : Int → Int) (hv : ∀ j, v j = 0) :
    (((innerK old new maxD 0 v (kList 0)).2 = true) ↔ BreakP old new 0) ∧
    ((innerK old new maxD 0 v (kList 0)).2 = false →
      ∀ k', Valid 0 k' →
        (innerK old new maxD 0 v (kList 0)).1 (k' + maxD) = F old new 0 k') := by
  have hk0 : kList 0 = [0] := by
    simp [kList, List.range_succ]
  obtain ⟨hstep2, hstep1⟩ := stepK0_spec old new maxD v hv
  have hpair : stepK old new maxD 0 v 0 =
      ((fun j => if j = 0 + maxD then F old new 0 0 else v j),
        decide ((old.length : Int) ≤ F old new 0 0 ∧
          (new.length : Int) ≤ F old new 0 0 - 0)) :=
    Prod.ext (funext hstep1) hstep2
  have hbiff : BreakP old new 0 ↔
      ((old.length : Int) ≤ F old new 0 0 ∧
        (new.length : Int) ≤ F old new 0 0 - 0) := by
    unfold BreakP
    rw [hk0]
    simp
  by_cases hbrk : (old.length : Int) ≤ F old new 0 0 ∧
      (new.length : Int) ≤ F old new 0 0 - 0
  · have hd : decide ((old.length : Int) ≤ F old new 0 0 ∧
        (new.length : Int) ≤ F old new 0 0 - 0) = true := decide_eq_true hbrk
    have hred : innerK old new maxD 0 v (kList 0) =
        ((fun j => if j = 0 + maxD then F old new 0 0 else v j), true) := by
      rw [hk0]
      simp only [innerK]
      rw [hpair, hd]
    rw [hred]
    exact ⟨⟨fun _ => hbiff.mpr hbrk, fun _ => rfl⟩,
      fun hfalse => absurd hfalse (by simp)⟩
  · have hd : decide ((old.length : Int) ≤ F old new 0 0 ∧
        (new.length : Int) ≤ F old new 0 0 - 0) = false := decide_eq_false hbrk
    have hred : innerK old new maxD 0 v (kList 0) =
        innerK old new maxD 0
          (fun j => if j = 0 + maxD then F old new 0 0 else v j) [] := by
      rw [hk0]
      simp only [innerK]
      rw [hpair, hd]
    rw [hred]
    simp only [innerK]
    refine ⟨⟨fun h => absurd h (by simp), fun hb => absurd (hbiff.mp hb) hbrk⟩, ?_⟩
    intro _ k' hk'
    have hk'0 := valid_zero hk'
    subst hk'0
    simp

end MyersLoop

theorem get_append_one {α : Type} (L : List α) (w : α) (i : Nat)
    (h2 : i < (L ++ [w]).length) :
    (L ++ [w]).get ⟨i, h2⟩ = if h : i < L.length then L.get ⟨i, h⟩ else w := by
  induction L generalizing i with
  | nil =>
    have hi : i = 0 := by
      simp at h2
      omega
    subst hi
    simp
  | cons a t ih =>
    cases i with
    | zero =>
      rw [dif_pos (by simp)]
      rfl
    | succ n =>
      have h2' : n < (t ++ [w]).length := by
        simp at h2 ⊢
        omega
      have hL : ((a :: t) ++ [w]).get ⟨n + 1, h2⟩ = (t ++ [w]).get ⟨n, h2'⟩ := rfl
      rw [hL, ih]
      by_cases hn : n < t.length
      · rw [dif_pos hn, dif_pos (by simpa using Nat.succ_lt_succ hn)]
        rfl
      · rw [dif_neg hn, dif_neg (by simp; omega)]

section MyersOuter

variable (old new : List String) (maxD : Int)

theorem outerD_spec : ∀ (cnt d₀ : Nat) (v : Int → Int)
    (trace : List (Int → Int)),
    (∀ d', d' < d₀ → ¬ BreakP old new d') →
    (∃ d', d₀ ≤ d' ∧ d' < d₀ + cnt ∧ BreakP old new d') →
    ((d₀ = 0 ∧ ∀ j, v j = 0) ∨
      (1 ≤ d₀ ∧ ∀ k, Valid (d₀ - 1) k → v (k + maxD) = F old new (d₀ - 1) k)) →
    trace.length = d₀ →
    (∀ i (h : i < trace.length), SnapOK old new maxD i (trace.get ⟨i, h⟩)) →
    ∃ D : Nat, d₀ ≤ D ∧ BreakP old new D ∧
      (∀ d', d' < D → ¬ BreakP old new d') ∧
      (outerD old new maxD v trace (List.range' d₀ cnt)).length = D + 1 ∧
      ∀ i (h : i < (outerD old new maxD v trace (List.range' d₀ cnt)).length),
        SnapOK old new maxD i
          ((outerD old new maxD v trace (List.range' d₀ cnt)).get ⟨i, h⟩) := by
  intro cnt
  induction cnt with
  | zero =>
    intro d₀ v trace _ hex _ _ _
    obtain ⟨d', h1, h2, _⟩ := hex
    omega
  | succ cnt ih =>
    intro d₀ v trace hmin hex hv htlen htok
    have hrange : List.range' d₀ (cnt + 1) = d₀ :: List.range' (d₀ + 1) cnt := rfl
    rw [hrange]
    -- the state after this depth, and the break flag
    have hsnap : SnapOK old new maxD d₀ v := by
      constructor
      · intro h0
        rcases hv with ⟨_, hz⟩ | ⟨h1, _⟩
        · exact hz
        · omega
      · intro k h1 hk
        rcases hv with ⟨h0, _⟩ | ⟨_, hr⟩
        · omega
        · exact hr k hk
    -- characterise the inner pass at this depth
    have hinner : (((innerK old new maxD (d₀ : Int) v (kList d₀)).2 = true) ↔
        BreakP old new d₀) ∧
        ((innerK old new maxD (d₀ : Int) v (kList d₀)).2 = false →
          ∀ k', Valid d₀ k' →
            (innerK old new maxD (d₀ : Int) v (kList d₀)).1 (k' + maxD) =
              F old new d₀ k') := by
      rcases Nat.eq_zero_or_pos d₀ with rfl | hpos
      · have hz : ∀ j, v j = 0 := by
          rcases hv with ⟨_, hz⟩ | ⟨h1, _⟩
          · exact hz
          · omega
        exact ⟨(innerK0_spec old new maxD v hz).1, (innerK0_spec old new maxD v hz).2⟩
      · obtain ⟨dd, rfl⟩ : ∃ dd, d₀ = dd + 1 := ⟨d₀ - 1, by omega⟩
        have hread : ∀ k', Valid dd k' → v (k' + maxD) = F old new dd k' := by
          intro k' hk'
          rcases hv with ⟨h0, _⟩ | ⟨_, hr⟩
          · omega
          · exact hr k' (by simpa using hk')
        have hcast : ((dd + 1 : Nat) : Int) = (dd : Int) + 1 := by push_cast; ring
        have hspec := innerK_spec old new maxD dd (kList (dd + 1)) v
          (fun a ha => (kList_mem (dd + 1) a).1 ha) (kList_pairwise (dd + 1)) hread
        rw [← hcast] at hspec
        refine ⟨?_, ?_⟩
        · rw [hspec.1]
          unfold BreakP
          exact Iff.rfl
        · intro hfalse k' hk'
          exact ((hspec.2 hfalse).2.1 k' ((kList_mem (dd + 1) k').2 hk'))
    by_cases hbrk : BreakP old new d₀
    · -- break now: the loop returns `trace ++ [v]`
      have hflag : (innerK old new maxD (d₀ : Int) v (kList d₀)).2 = true :=
        hinner.1.mpr hbrk
      have hout : outerD old new maxD v trace
          (d₀ :: List.range' (d₀ + 1) cnt) = trace ++ [v] := by
        simp only [outerD]
        obtain ⟨w, hw⟩ : ∃ w, innerK old new maxD (d₀ : Int) v (kList d₀) =
            (w, true) := ⟨_, Prod.ext rfl hflag⟩
        rw [hw]
      rw [hout]
      refine ⟨d₀, le_refl _, hbrk, hmin, by simp [htlen], ?_⟩
      intro i h
      rw [get_append_one]
      split
      · next hlt => exact htok i hlt
      · next hge =>
        have : i = d₀ := by
          simp at h
          omega
        subst this
        exact hsnap
    · -- no break: recurse at the next depth
      have hflag : (innerK old new maxD (d₀ : Int) v (kList d₀)).2 = false := by
        rcases hb : (innerK old new maxD (d₀ : Int) v (kList d₀)).2 with _ | _
        · rfl
        · exact absurd (hinner.1.mp hb) hbrk
      have hout : outerD old new maxD v trace
          (d₀ :: List.range' (d₀ + 1) cnt) =
          outerD old new maxD ((innerK old new maxD (d₀ : Int) v (kList d₀)).1)
            (trace ++ [v]) (List.range' (d₀ + 1) cnt) := by
        simp only [outerD]
        obtain ⟨w, hw⟩ : ∃ w, innerK old new maxD (d₀ : Int) v (kList d₀) =
            (w, false) := ⟨_, Prod.ext rfl hflag⟩
        rw [hw]
      rw [hout]
      have hnext := ih (d₀ + 1) ((innerK old new maxD (d₀ : Int) v (kList d₀)).1)
        (trace ++ [v])
        (by
          intro d' hd'
          rcases Nat.lt_succ_iff_lt_or_eq.1 hd' with h | rfl
          · exact hmin d' h
          · exact hbrk)
        (by
          obtain ⟨d', h1, h2, h3⟩ := hex
          refine ⟨d', ?_, by omega, h3⟩
          rcases Nat.eq_or_lt_of_le h1 with rfl | h
          · exact absurd h3 hbrk
          · omega)
        (by
          right
          refine ⟨by omega, ?_⟩
          intro k hk
          have := hinner.2 hflag k (by simpa using hk)
          simpa using this)
        (by simp [htlen])
        (by
          intro i h
          rw [get_append_one]
          split
          · next hlt => exact htok i hlt
          · next hge =>
            have : i = d₀ := by
              simp at h
              omega
            subst this
            exact hsnap)
      obtain ⟨D, hD1, hD2, hD3, hD4, hD5⟩ := hnext
      exact ⟨D, by omega, hD2, hD3, hD4, hD5⟩

end MyersOuter

/-!
Backtracking: characterising the keep-emitting while loop and one step of
the backtracking recursion.
-/


section MyersBack

variable (old new : List String) (maxD : Int)

theorem keepsSeg_cost (a : Int) : ∀ t : Nat, editCost (keepsSeg old a t) = 0 := by
  intro t
  induction t with
  | zero => rfl
  | succ t ih =>
    have : keepsSeg old a (t + 1) =
        [Edit.keep (jsGetD old (a + (t : Int)))] ++ keepsSeg old a t := rfl
    rw [this, editCost_append, ih]
    have h0 : editCost [Edit.keep (jsGetD old (a + (t : Int)))] = 0 := rfl
    omega

theorem keepsLoop_run : ∀ (t : Nat) (s k x y px py : Int) (acc : List Edit),
    x - y = k → s ≤ x → (x - s).toNat = t →
    ((px = s ∧ py = s - k - 1) ∨ (px = s - 1 ∧ py = s - k)) →
    keepsLoop old px py x y acc = (s, s - k, acc ++ keepsSeg old s t) := by
  intro t
  induction t with
  | zero =>
    intro s k x y px py acc hk hsx ht hshape
    have hxs : x = s := by omega
    subst hxs
    rw [keepsLoop]
    rw [if_neg (by rcases hshape with ⟨h1, h2⟩ | ⟨h1, h2⟩ <;> omega)]
    have hy : y = x - k := by omega
    subst hy
    simp [keepsSeg]
  | succ t ih =>
    intro s k x y px py acc hk hsx ht hshape
    have hxs : s < x := by omega
    rw [keepsLoop]
    rw [if_pos (by rcases hshape with ⟨h1, h2⟩ | ⟨h1, h2⟩ <;> omega)]
    have hrec := ih s k (x - 1) (y - 1) px py
      (acc ++ [Edit.keep (jsGetD old (x - 1))]) (by omega) (by omega) (by omega)
      hshape
    rw [hrec]
    have hseg : keepsSeg old s (t + 1) =
        Edit.keep (jsGetD old (s + (t : Int))) :: keepsSeg old s t := rfl
    have hst : s + (t : Int) = x - 1 := by omega
    rw [hseg, hst]
    simp

theorem keepsSeg_replayOld : ∀ (t : Nat) (a : Int), 0 ≤ a →
    a + (t : Int) ≤ (old.length : Int) →
    old.take a.toNat ++ replayOld ((keepsSeg old a t).reverse) =
      old.take (a + (t : Int)).toNat := by
  intro t
  induction t with
  | zero =>
    intro a ha hb
    simp [keepsSeg, replayOld]
  | succ t ih =>
    intro a ha hb
    have hseg : keepsSeg old a (t + 1) =
        Edit.keep (jsGetD old (a + (t : Int))) :: keepsSeg old a t := rfl
    rw [hseg, List.reverse_cons, replayOld_append]
    have hr : replayOld [Edit.keep (jsGetD old (a + (t : Int)))] =
        [jsGetD old (a + (t : Int))] := rfl
    rw [hr, ← List.append_assoc, ih a ha (by push_cast at hb ⊢; omega)]
    have hlt : (a + (t : Int)).toNat < old.length := by push_cast at hb; omega
    rw [jsGetD_eq_get old _ (by omega) hlt]
    rw [← take_snoc old _ hlt]
    congr 1
    push_cast
    omega

theorem keepsSeg_replayNew : ∀ (t : Nat) (a k : Int), 0 ≤ a → 0 ≤ a - k →
    (∀ i : Int, a ≤ i → i < a + (t : Int) →
      i < (old.length : Int) ∧ i - k < (new.length : Int) ∧
        jsGet old i = jsGet new (i - k)) →
    new.take (a - k).toNat ++ replayNew ((keepsSeg old a t).reverse) =
      new.take (a + (t : Int) - k).toNat := by
  intro t
  induction t with
  | zero =>
    intro a k ha hak _
    simp [keepsSeg, replayNew]
  | succ t ih =>
    intro a k ha hak hm
    have hseg : keepsSeg old a (t + 1) =
        Edit.keep (jsGetD old (a + (t : Int))) :: keepsSeg old a t := rfl
    rw [hseg, List.reverse_cons, replayNew_append]
    have hr : replayNew [Edit.keep (jsGetD old (a + (t : Int)))] =
        [jsGetD old (a + (t : Int))] := rfl
    rw [hr, ← List.append_assoc, ih a k ha hak (by
      intro i h1 h2
      exact hm i h1 (by push_cast at h2 ⊢; omega))]
    obtain ⟨h1, h2, h3⟩ := hm (a + (t : Int)) (by omega) (by push_cast; omega)
    have hsome := jsGet_pos old (a + (t : Int)) (by omega) (by omega)
    have hnew : jsGet new (a + (t : Int) - k) =
        some (old.get ⟨(a + (t : Int)).toNat, by omega⟩) := by
      rw [← h3, hsome]
    obtain ⟨hge, hlt, hget⟩ := jsGet_some hnew
    rw [jsGetD_eq_get old _ (by omega) (by omega)]
    rw [← hget]
    rw [← take_snoc new _ hlt]
    congr 1
    push_cast
    omega

theorem backBranch_val (d : Nat) (prev : Int → Int) (k : Int)
    (hv : Valid (d + 1) k)
    (hread : ∀ k', Valid d k' → prev (k' + maxD) = F old new d k') :
    (if k = -((d : Int) + 1) ∨
        (k ≠ (d : Int) + 1 ∧ prev (k + maxD - 1) < prev (k + maxD + 1))
     then k + 1 else k - 1) =
      (if k = -((d : Int) + 1) ∨
          (k ≠ (d : Int) + 1 ∧ F old new d (k - 1) < F old new d (k + 1))
       then k + 1 else k - 1) := by
  have e1 : k + maxD - 1 = (k - 1) + maxD := by ring
  have e2 : k + maxD + 1 = (k + 1) + maxD := by ring
  rw [e1, e2]
  by_cases hbot : k = -((d : Int) + 1)
  · rw [if_pos (Or.inl hbot), if_pos (Or.inl hbot)]
  · by_cases htop : k = (d : Int) + 1
    · rw [if_neg (by
        intro h
        rcases h with h | h
        · exact hbot h
        · exact h.1 htop), if_neg (by
        intro h
        rcases h with h | h
        · exact hbot h
        · exact h.1 htop)]
    · rw [hread (k - 1) (valid_dn hv hbot), hread (k + 1) (valid_up hv htop)]

theorem backLoop_cons_run (prev : Int → Int) (rest : List (Int → Int))
    (dI x y pk s : Int) (t : Nat) (acc : List Edit)
    (hbranch : (if x - y = -dI ∨
        (x - y ≠ dI ∧ prev (x - y + maxD - 1) < prev (x - y + maxD + 1))
      then x - y + 1 else x - y - 1) = pk)
    (hrun : keepsLoop old (prev (pk + maxD)) (prev (pk + maxD) - pk) x y acc =
      (s, s - (x - y), acc ++ keepsSeg old s t)) :
    backLoop old new maxD (prev :: rest) dI x y acc =
      if 0 < dI then
        (if s = prev (pk + maxD) then
          backLoop old new maxD rest (dI - 1) s (s - (x - y) - 1)
            ((acc ++ keepsSeg old s t) ++
              [Edit.insert (jsGetD new (s - (x - y) - 1))])
        else
          backLoop old new maxD rest (dI - 1) (s - 1) (s - (x - y))
            ((acc ++ keepsSeg old s t) ++ [Edit.delete (jsGetD old (s - 1))]))
      else (acc ++ keepsSeg old s t) := by
  simp only [backLoop]
  rw [hbranch, hrun]

end MyersBack

section MyersBack2

variable (old new : List String) (maxD : Int)

theorem take_snoc_take (xs : List String) (b : Int) (h0 : 0 ≤ b)
    (hb : b < (xs.length : Int)) :
    xs.take b.toNat ++ [jsGetD xs b] = xs.take (b + 1).toNat := by
  rw [jsGetD_eq_get xs b h0 (by omega)]
  have hb1 : (b + 1).toNat = b.toNat + 1 := by omega
  rw [hb1, take_snoc xs b.toNat (by omega)]

theorem backLoop_spec : ∀ (d : Nat) (snaps : List (Int → Int)) (x y : Int)
    (acc : List Edit),
    snaps.length = d + 1 →
    (∀ i (h : i < snaps.length),
      SnapOK old new maxD (d - i) (snaps.get ⟨i, h⟩)) →
    Valid d (x - y) →
    startX old new d (x - y) ≤ x → x ≤ F old new d (x - y) →
    0 ≤ x → 0 ≤ y →
    x ≤ (old.length : Int) → y ≤ (new.length : Int) →
    ∃ s : List Edit,
      backLoop old new maxD snaps (d : Int) x y acc = acc ++ s ∧
      replayOld s.reverse = old.take x.toNat ∧
      replayNew s.reverse = new.take y.toNat ∧
      editCost s = d := by
  intro d
  induction d with
  | zero =>
    intro snaps x y acc hlen hsn hv hsxle hxF hx0 hy0 hxn hym
    cases snaps with
    | nil => simp at hlen
    | cons prev rest =>
    have hrest : rest = [] := by
      have hl2 := hlen
      simp at hl2
      exact hl2
    subst hrest
    have hk0 : x - y = 0 := valid_zero hv
    have hprev0 : ∀ j, prev j = 0 := by
      have hs := hsn 0 (by simp)
      exact hs.1 rfl
    have hz : ((0 : Nat) : Int) = 0 := Nat.cast_zero
    rw [hz]
    have hbranch : (if x - y = -(0 : Int) ∨
        (x - y ≠ (0 : Int) ∧ prev (x - y + maxD - 1) < prev (x - y + maxD + 1))
      then x - y + 1 else x - y - 1) = x - y + 1 := by
      rw [if_pos (Or.inl (by omega))]
    have hrun := keepsLoop_run old (x.toNat) 0 (x - y) x y
      (prev ((x - y + 1) + maxD)) (prev ((x - y + 1) + maxD) - (x - y + 1)) acc
      (by omega) hx0 (by omega)
      (Or.inl ⟨by rw [hprev0], by rw [hprev0]; omega⟩)
    have hcons := backLoop_cons_run old new maxD prev [] 0 x y
      (x - y + 1) 0 x.toNat acc hbranch hrun
    rw [hcons, if_neg (by omega)]
    refine ⟨keepsSeg old 0 x.toNat, rfl, ?_, ?_, ?_⟩
    · have hro := keepsSeg_replayOld old x.toNat 0 (le_refl _) (by omega)
      have h00 : ((0 : Int).toNat) = 0 := rfl
      rw [h00, List.take_zero, List.nil_append] at hro
      rw [hro]
      congr 1
      omega
    · have hFk : F old new 0 (x - y) = snake old new (x - y) 0 := rfl
      rw [hFk] at hxF
      have hrn := keepsSeg_replayNew old new x.toNat 0 (x - y) (le_refl _)
        (by omega) (by
          intro i h1 h2
          exact snake_matches old new (x - y) 0 i h1 (by omega))
      have h0k : (0 - (x - y)) = 0 := by omega
      rw [h0k] at hrn
      have h00 : ((0 : Int).toNat) = 0 := rfl
      rw [h00, List.take_zero, List.nil_append] at hrn
      rw [hrn]
      congr 1
      omega
    · exact keepsSeg_cost old 0 x.toNat
  | succ d ih =>
    intro snaps x y acc hlen hsn hv hsxle hxF hx0 hy0 hxn hym
    cases snaps with
    | nil => simp at hlen
    | cons prev rest =>
    have hrlen : rest.length = d + 1 := by
      simp at hlen
      exact hlen
    have hprev : SnapOK old new maxD (d + 1) prev := by
      have hs := hsn 0 (by simp)
      simpa using hs
    have hreadp : ∀ k', Valid d k' → prev (k' + maxD) = F old new d k' := by
      intro k' hk'
      exact hprev.2 k' (by omega) (by simpa using hk')
    have hsnr : ∀ i (h : i < rest.length),
        SnapOK old new maxD (d - i) (rest.get ⟨i, h⟩) := by
      intro i h
      have hs := hsn (i + 1) (by simp only [List.length_cons]; omega)
      have hg : (prev :: rest).get ⟨i + 1, by simp only [List.length_cons]; omega⟩ =
          rest.get ⟨i, h⟩ := rfl
      rw [hg] at hs
      have harith : d + 1 - (i + 1) = d - i := by omega
      rwa [harith] at hs
    have hdI : ((d + 1 : Nat) : Int) = (d : Int) + 1 := by norm_num
    rw [hdI]
    have hbv := backBranch_val old new maxD d prev (x - y) hv hreadp
    by_cases hcF : x - y = -((d : Int) + 1) ∨
        (x - y ≠ (d : Int) + 1 ∧
          F old new d (x - y - 1) < F old new d (x - y + 1))
    · -- down move
      have hbranch : (if x - y = -((d : Int) + 1) ∨
          (x - y ≠ (d : Int) + 1 ∧
            prev (x - y + maxD - 1) < prev (x - y + maxD + 1))
        then x - y + 1 else x - y - 1) = x - y + 1 := by
        rw [hbv, if_pos hcF]
      have hvup : Valid d (x - y + 1) := valid_up hv (cond_ne_top old new hcF)
      have hPX : prev ((x - y + 1) + maxD) = F old new d (x - y + 1) :=
        hreadp _ hvup
      have hFb := F_bounds old new d (x - y + 1) hvup
      have hsxv : startX old new (d + 1) (x - y) = F old new d (x - y + 1) := by
        simp only [startX, if_pos hcF]
      rw [hsxv] at hsxle
      have hFsnake : F old new (d + 1) (x - y) =
          snake old new (x - y) (F old new d (x - y + 1)) := by
        rw [F_eq_snake, hsxv]
      have hrun := keepsLoop_run old ((x - F old new d (x - y + 1)).toNat)
        (F old new d (x - y + 1)) (x - y) x y
        (prev ((x - y + 1) + maxD)) (prev ((x - y + 1) + maxD) - (x - y + 1)) acc
        rfl hsxle rfl
        (Or.inl ⟨by rw [hPX], by rw [hPX]; ring⟩)
      have hcons := backLoop_cons_run old new maxD prev rest ((d : Int) + 1) x y
        (x - y + 1) (F old new d (x - y + 1))
        ((x - F old new d (x - y + 1)).toNat) acc hbranch hrun
      rw [hcons, if_pos (by omega), if_pos (by rw [hPX])]
      have hd1 : ((d : Int) + 1 - 1) = (d : Int) := by ring
      rw [hd1]
      have hrew : F old new d (x - y + 1) -
          (F old new d (x - y + 1) - (x - y) - 1) = x - y + 1 := by ring
      have hmatches := fun (i : Int) (h1 : F old new d (x - y + 1) ≤ i)
          (h2 : i < x) =>
        snake_matches old new (x - y) (F old new d (x - y + 1)) i h1
          (by rw [← hFsnake]; omega)
      obtain ⟨s₀, hs₀eq, hs₀old, hs₀new, hs₀cost⟩ := ih rest
        (F old new d (x - y + 1)) (F old new d (x - y + 1) - (x - y) - 1)
        ((acc ++ keepsSeg old (F old new d (x - y + 1))
            ((x - F old new d (x - y + 1)).toNat)) ++
          [Edit.insert (jsGetD new (F old new d (x - y + 1) - (x - y) - 1))])
        hrlen hsnr (by rw [hrew]; exact hvup)
        (by rw [hrew]; exact startX_le_F old new d (x - y + 1))
        (by rw [hrew]) (by omega) (by omega) (by omega) (by omega)
      rw [hs₀eq]
      refine ⟨keepsSeg old (F old new d (x - y + 1))
          ((x - F old new d (x - y + 1)).toNat) ++
          [Edit.insert (jsGetD new (F old new d (x - y + 1) - (x - y) - 1))] ++ s₀,
        by simp, ?_, ?_, ?_⟩
      · rw [List.reverse_append, List.reverse_append, replayOld_append,
          replayOld_append, hs₀old]
        have hins : replayOld ([Edit.insert
            (jsGetD new (F old new d (x - y + 1) - (x - y) - 1))].reverse) =
            [] := rfl
        rw [hins, List.nil_append]
        have hro := keepsSeg_replayOld old
          ((x - F old new d (x - y + 1)).toNat) (F old new d (x - y + 1))
          (by omega) (by omega)
        rw [hro]
        congr 1
        omega
      · rw [List.reverse_append, List.reverse_append, replayNew_append,
          replayNew_append, hs₀new]
        have hins : replayNew ([Edit.insert
            (jsGetD new (F old new d (x - y + 1) - (x - y) - 1))].reverse) =
            [jsGetD new (F old new d (x - y + 1) - (x - y) - 1)] := rfl
        rw [hins, ← List.append_assoc]
        have hone := take_snoc_take new (F old new d (x - y + 1) - (x - y) - 1)
          (by omega) (by omega)
        rw [hone]
        have harr : F old new d (x - y + 1) - (x - y) - 1 + 1 =
            F old new d (x - y + 1) - (x - y) := by ring
        rw [harr]
        have hrn := keepsSeg_replayNew old new
          ((x - F old new d (x - y + 1)).toNat) (F old new d (x - y + 1))
          (x - y) (by omega) (by omega)
          (by
            intro i h1 h2
            exact hmatches i h1 (by omega))
        rw [hrn]
        congr 1
        omega
      · rw [editCost_append, editCost_append, keepsSeg_cost, hs₀cost]
        have h1 : editCost [Edit.insert
            (jsGetD new (F old new d (x - y + 1) - (x - y) - 1))] = 1 := rfl
        omega
    · -- right move
      have hbranch : (if x - y = -((d : Int) + 1) ∨
          (x - y ≠ (d : Int) + 1 ∧
            prev (x - y + maxD - 1) < prev (x - y + maxD + 1))
        then x - y + 1 else x - y - 1) = x - y - 1 := by
        rw [hbv, if_neg hcF]
      have hbot : x - y ≠ -((d : Int) + 1) := fun h => hcF (Or.inl h)
      have hvdn : Valid d (x - y - 1) := valid_dn hv hbot
      have hPX : prev ((x - y - 1) + maxD) = F old new d (x - y - 1) :=
        hreadp _ hvdn
      have hFb := F_bounds old new d (x - y - 1) hvdn
      have hsxv : startX old new (d + 1) (x - y) =
          F old new d (x - y - 1) + 1 := by
        simp only [startX, if_neg hcF]
      rw [hsxv] at hsxle
      have hFsnake : F old new (d + 1) (x - y) =
          snake old new (x - y) (F old new d (x - y - 1) + 1) := by
        rw [F_eq_snake, hsxv]
      have hrun := keepsLoop_run old
        ((x - (F old new d (x - y - 1) + 1)).toNat)
        (F old new d (x - y - 1) + 1) (x - y) x y
        (prev ((x - y - 1) + maxD)) (prev ((x - y - 1) + maxD) - (x - y - 1)) acc
        rfl hsxle rfl
        (Or.inr ⟨by rw [hPX]; ring, by rw [hPX]; ring⟩)
      have hcons := backLoop_cons_run old new maxD prev rest ((d : Int) + 1) x y
        (x - y - 1) (F old new d (x - y - 1) + 1)
        ((x - (F old new d (x - y - 1) + 1)).toNat) acc hbranch hrun
      rw [hcons, if_pos (by omega), if_neg (by rw [hPX]; omega)]
      have hd1 : ((d : Int) + 1 - 1) = (d : Int) := by ring
      rw [hd1]
      have hs1 : F old new d (x - y - 1) + 1 - 1 = F old new d (x - y - 1) := by
        ring
      rw [hs1]
      have hrew : F old new d (x - y - 1) -
          (F old new d (x - y - 1) + 1 - (x - y)) = x - y - 1 := by ring
      have hmatches := fun (i : Int)
          (h1 : F old new d (x - y - 1) + 1 ≤ i) (h2 : i < x) =>
        snake_matches old new (x - y) (F old new d (x - y - 1) + 1) i h1
          (by rw [← hFsnake]; omega)
      obtain ⟨s₀, hs₀eq, hs₀old, hs₀new, hs₀cost⟩ := ih rest
        (F old new d (x - y - 1)) (F old new d (x - y - 1) + 1 - (x - y))
        ((acc ++ keepsSeg old (F old new d (x - y - 1) + 1)
            ((x - (F old new d (x - y - 1) + 1)).toNat)) ++
          [Edit.delete (jsGetD old (F old new d (x - y - 1)))])
        hrlen hsnr (by rw [hrew]; exact hvdn)
        (by rw [hrew]; exact startX_le_F old new d (x - y - 1))
        (by rw [hrew]) (by omega) (by omega) (by omega) (by omega)
      rw [hs₀eq]
      refine ⟨keepsSeg old (F old new d (x - y - 1) + 1)
          ((x - (F old new d (x - y - 1) + 1)).toNat) ++
          [Edit.delete (jsGetD old (F old new d (x - y - 1)))] ++ s₀,
        by simp, ?_, ?_, ?_⟩
      · rw [List.reverse_append, List.reverse_append, replayOld_append,
          replayOld_append, hs₀old]
        have hdel : replayOld ([Edit.delete
            (jsGetD old (F old new d (x - y - 1)))].reverse) =
            [jsGetD old (F old new d (x - y - 1))] := rfl
        rw [hdel, ← List.append_assoc]
        have hone := take_snoc_take old (F old new d (x - y - 1))
          (by omega) (by omega)
        rw [hone]
        have hro := keepsSeg_replayOld old
          ((x - (F old new d (x - y - 1) + 1)).toNat)
          (F old new d (x - y - 1) + 1) (by omega) (by omega)
        rw [hro]
        congr 1
        omega
      · rw [List.reverse_append, List.reverse_append, replayNew_append,
          replayNew_append, hs₀new]
        have hdel : replayNew ([Edit.delete
            (jsGetD old (F old new d (x - y - 1)))].reverse) = [] := rfl
        rw [hdel, List.nil_append]
        have hrn := keepsSeg_replayNew old new
          ((x - (F old new d (x - y - 1) + 1)).toNat)
          (F old new d (x - y - 1) + 1) (x - y) (by omega) (by omega)
          (by
            intro i h1 h2
            exact hmatches i h1 (by omega))
        rw [hrn]
        congr 1
        omega
      · rw [editCost_append, editCost_append, keepsSeg_cost, hs₀cost]
        have h1 : editCost [Edit.delete
            (jsGetD old (F old new d (x - y - 1)))] = 1 := rfl
        omega

end MyersBack2

/-!
Main correctness of `myersDiff`: the produced script replays to exactly the
two inputs, and its insert+delete count is minimal over all such scripts.
-/

theorem breakP_of_trace (old new : List String) (e : List Edit)
    (h1 : replayOld e = old) (h2 : replayNew e = new) :
    BreakP old new (editCost e) := by
  have htr : IsTrace old new e old.length new.length := by
    refine ⟨?_, ?_, le_refl _, le_refl _⟩
    · rw [List.take_length]
      exact h1
    · rw [List.take_length]
      exact h2
  obtain ⟨hval, hle⟩ := reach_le_F old new e old.length new.length htr
  refine ⟨(old.length : Int) - new.length,
    (kList_mem _ _).2 hval, hle, by omega⟩

theorem myersDiff_main (old new : List String) :
    replayOld (myersDiff old new) = old ∧
    replayNew (myersDiff old new) = new ∧
    ∀ e : List Edit, replayOld e = old → replayNew e = new →
      editCost (myersDiff old new) ≤ editCost e := by
  have hco : replayOld (old.map Edit.delete ++ new.map Edit.insert) = old := by
    rw [replayOld_append, replayOld_map_delete, replayOld_map_insert,
      List.append_nil]
  have hcn : replayNew (old.map Edit.delete ++ new.map Edit.insert) = new := by
    rw [replayNew_append, replayNew_map_delete, replayNew_map_insert,
      List.nil_append]
  have hcanon := breakP_of_trace old new
    (old.map Edit.delete ++ new.map Edit.insert) hco hcn
  rw [editCost_canonical] at hcanon
  -- run the outer loop
  have hNat : ((old.length : Int) + (new.length : Int)).toNat =
      old.length + new.length := by omega
  obtain ⟨D, _, hD, hmin, hlen, hsnaps⟩ :=
    outerD_spec old new ((old.length : Int) + (new.length : Int))
      (old.length + new.length + 1) 0 (fun _ => 0) []
      (by omega)
      ⟨old.length + new.length, by omega, by omega, hcanon⟩
      (Or.inl ⟨rfl, fun _ => rfl⟩)
      rfl
      (by
        intro i h
        simp at h)
  -- identify the final reach on the main diagonal
  obtain ⟨kb, hkb, hkbn, hkbm⟩ := hD
  have hkbv : Valid D kb := (kList_mem D kb).1 hkb
  obtain ⟨e₁, he₁c, he₁o, he₁n⟩ := F_sound old new D kb hkbv
  rw [min_eq_right hkbn] at he₁o
  rw [min_eq_right hkbm] at he₁n
  have he₁o2 : replayOld e₁ = old := by
    rw [he₁o]
    have : ((old.length : Int)).toNat = old.length := by omega
    rw [this, List.take_length]
  have he₁n2 : replayNew e₁ = new := by
    rw [he₁n]
    have : ((new.length : Int)).toNat = new.length := by omega
    rw [this, List.take_length]
  have hbrk1 := breakP_of_trace old new e₁ he₁o2 he₁n2
  have hcost1 : editCost e₁ = D := by
    by_contra hne
    exact hmin (editCost e₁) (by omega) hbrk1
  have htr1 : IsTrace old new e₁ old.length new.length := by
    refine ⟨?_, ?_, le_refl _, le_refl _⟩
    · rw [List.take_length]
      exact he₁o2
    · rw [List.take_length]
      exact he₁n2
  obtain ⟨hValD0, hFD0⟩ := reach_le_F old new e₁ old.length new.length htr1
  rw [hcost1] at hValD0 hFD0
  -- startX at the main diagonal is within the grid, by minimality of D
  have hstart : startX old new D ((old.length : Int) - new.length) ≤
      (old.length : Int) := by
    cases D with
    | zero =>
      have h0 : startX old new 0 ((old.length : Int) - new.length) = 0 := rfl
      rw [h0]
      omega
    | succ dd =>
      by_cases hcF : (old.length : Int) - new.length = -((dd : Int) + 1) ∨
          ((old.length : Int) - new.length ≠ (dd : Int) + 1 ∧
            F old new dd ((old.length : Int) - new.length - 1) <
              F old new dd ((old.length : Int) - new.length + 1))
      · have hsx : startX old new (dd + 1) ((old.length : Int) - new.length) =
            F old new dd ((old.length : Int) - new.length + 1) := by
          simp only [startX, if_pos hcF]
        rw [hsx]
        by_contra hgt
        push_neg at hgt
        have hvup : Valid dd ((old.length : Int) - new.length + 1) :=
          valid_up hValD0 (cond_ne_top old new hcF)
        exact hmin dd (by omega)
          ⟨(old.length : Int) - new.length + 1, (kList_mem _ _).2 hvup,
            by omega, by omega⟩
      · have hsx : startX old new (dd + 1) ((old.length : Int) - new.length) =
            F old new dd ((old.length : Int) - new.length - 1) + 1 := by
          simp only [startX, if_neg hcF]
        rw [hsx]
        by_contra hgt
        push_neg at hgt
        have hbot : (old.length : Int) - new.length ≠ -((dd : Int) + 1) :=
          fun h => hcF (Or.inl h)
        have hvdn : Valid dd ((old.length : Int) - new.length - 1) :=
          valid_dn hValD0 hbot
        exact hmin dd (by omega)
          ⟨(old.length : Int) - new.length - 1, (kList_mem _ _).2 hvdn,
            by omega, by omega⟩
  -- run the backtracking pass
  have hsnrev : ∀ i (h : i < (outerD old new
      ((old.length : Int) + (new.length : Int)) (fun _ => 0) []
      (List.range' 0 (old.length + new.length + 1))).reverse.length),
      SnapOK old new ((old.length : Int) + (new.length : Int)) (D - i)
        ((outerD old new ((old.length : Int) + (new.length : Int)) (fun _ => 0)
          [] (List.range' 0 (old.length + new.length + 1))).reverse.get
            ⟨i, h⟩) := by
    intro i h
    have h' : i < (outerD old new ((old.length : Int) + (new.length : Int))
        (fun _ => 0) [] (List.range' 0 (old.length + new.length + 1))).length := by
      simpa using h
    rw [List.get_eq_getElem, List.getElem_reverse]
    have hsn2 := hsnaps ((outerD old new
        ((old.length : Int) + (new.length : Int)) (fun _ => 0) []
        (List.range' 0 (old.length + new.length + 1))).length - 1 - i)
      (by omega)
    rw [List.get_eq_getElem] at hsn2
    convert hsn2 using 2
    omega
  obtain ⟨s, hseq, hsold, hsnew, hscost⟩ := backLoop_spec old new
    ((old.length : Int) + (new.length : Int)) D
    ((outerD old new ((old.length : Int) + (new.length : Int)) (fun _ => 0) []
      (List.range' 0 (old.length + new.length + 1))).reverse)
    (old.length : Int) (new.length : Int) []
    (by simp [hlen])
    hsnrev
    hValD0 hstart hFD0 (by omega) (by omega) (le_refl _) (le_refl _)
  -- assemble
  have hmd : myersDiff old new = s.reverse := by
    simp only [myersDiff]
    rw [hNat, List.range_eq_range']
    have hlenc : (((outerD old new ((old.length : Int) + (new.length : Int))
        (fun _ => 0) [] (List.range' 0 (old.length + new.length + 1))).length :
          Int) - 1) = (D : Int) := by
      rw [hlen]
      push_cast
      ring
    rw [hlenc, hseq]
    simp
  refine ⟨?_, ?_, ?_⟩
  · rw [hmd, hsold]
    have : ((old.length : Int)).toNat = old.length := by omega
    rw [this, List.take_length]
  · rw [hmd, hsnew]
    have : ((new.length : Int)).toNat = new.length := by omega
    rw [this, List.take_length]
  · intro e h1 h2
    have hbrk := breakP_of_trace old new e h1 h2
    have hDe : D ≤ editCost e := by
      by_contra hlt
      exact hmin (editCost e) (by omega) hbrk
    rw [hmd, editCost_reverse, hscost]
    exact hDe

/-!
Helper lemmas about hunk construction and diff-text rendering.
-/

theorem editCost_cons_keep (a : String) (e : List Edit) :
    editCost (Edit.keep a :: e) = editCost e := rfl

theorem editCost_map_keep (l : List String) :
    editCost (l.map Edit.keep) = 0 := by
  induction l with
  | nil => rfl
  | cons a as ih => rw [List.map_cons, editCost_cons_keep, ih]

theorem editCost_zero_keep {e : List Edit} (h : editCost e = 0) :
    ∀ op ∈ e, op.isKeep = true := by
  intro op hop
  have hnil : (e.filter fun op => !op.isKeep) = [] :=
    List.length_eq_zero.mp h
  have := List.filter_eq_nil_iff.mp hnil op hop
  simpa using this

theorem changeIndicesAux_cons_keep {a : Edit} (ha : a.isKeep = true)
    (e : List Edit) (i : Nat) :
    changeIndicesAux (a :: e) i = changeIndicesAux e (i + 1) := by
  simp only [changeIndicesAux]
  rw [if_pos ha]

theorem changeIndicesAux_cons_change {a : Edit} (ha : a.isKeep = false)
    (e : List Edit) (i : Nat) :
    changeIndicesAux (a :: e) i = i :: changeIndicesAux e (i + 1) := by
  simp only [changeIndicesAux]
  rw [if_neg (by simp [ha])]

theorem changeIndicesAux_keeps : ∀ {e : List Edit},
    (∀ op ∈ e, op.isKeep = true) → ∀ i, changeIndicesAux e i = [] := by
  intro e
  induction e with
  | nil => intro _ _; rfl
  | cons a as ih =>
    intro h i
    rw [changeIndicesAux_cons_keep (h a (by simp))]
    exact ih (fun op hop => h op (by simp [hop])) (i + 1)

theorem changeIndicesAux_append : ∀ (A B : List Edit) (i : Nat),
    changeIndicesAux (A ++ B) i =
      changeIndicesAux A i ++ changeIndicesAux B (i + A.length) := by
  intro A
  induction A with
  | nil => intro B i; simp [changeIndicesAux]
  | cons a as ih =>
    intro B i
    rw [List.cons_append]
    by_cases ha : a.isKeep = true
    · rw [changeIndicesAux_cons_keep ha, changeIndicesAux_cons_keep ha,
        ih B (i + 1),
        (by simp only [List.length_cons]; omega :
          i + 1 + as.length = i + (a :: as).length)]
    · rw [changeIndicesAux_cons_change (by simp at ha; simp [ha]),
        changeIndicesAux_cons_change (by simp at ha; simp [ha]),
        ih B (i + 1), List.cons_append,
        (by simp only [List.length_cons]; omega :
          i + 1 + as.length = i + (a :: as).length)]

theorem changeIndices_two (P M Q : List Edit) (c1 c2 : Edit)
    (hP : ∀ op ∈ P, op.isKeep = true) (hM : ∀ op ∈ M, op.isKeep = true)
    (hQ : ∀ op ∈ Q, op.isKeep = true) (h1 : c1.isKeep = false)
    (h2 : c2.isKeep = false) :
    changeIndices (P ++ c1 :: (M ++ c2 :: Q)) =
      [P.length, P.length + 1 + M.length] := by
  rw [changeIndices, changeIndicesAux_append, changeIndicesAux_keeps hP,
    List.nil_append, changeIndicesAux_cons_change h1,
    changeIndicesAux_append, changeIndicesAux_keeps hM, List.nil_append,
    changeIndicesAux_cons_change h2, changeIndicesAux_keeps hQ]
  simp

theorem buildGroups_pair (c : Nat) (i j : Nat) :
    buildGroups c [] i i [j] =
      if j - i ≤ 2 * c then [(i, j)] else [(i, i), (j, j)] := by
  simp only [buildGroups]
  by_cases h : j - i ≤ 2 * c <;> simp [h]

theorem buildHunks_eq_of_ci {edits : List Edit} {i : Nat} {rest : List Nat}
    (c : Nat) (hci : changeIndices edits = i :: rest) :
    buildHunks edits c =
      (buildGroups c [] i i rest).map (hunkOfGroup edits c) := by
  have hne : edits ≠ [] := by
    intro h
    rw [h] at hci
    cases hci
  rw [buildHunks, if_neg (fun h => hne (List.isEmpty_iff.mp h))]
  rw [hci]

theorem buildHunks_all_keep {e : List Edit}
    (h : ∀ op ∈ e, op.isKeep = true) (c : Nat) : buildHunks e c = [] := by
  cases e with
  | nil => rfl
  | cons a as =>
    have hci : changeIndices (a :: as) = [] := changeIndicesAux_keeps h 0
    rw [buildHunks, if_neg (by simp)]
    rw [hci]

theorem toolResultHook_some {tcId : String}
    {calls : String → Option EditRecord} {r : EditRecord}
    (h : calls tcId = some r) (res : List String) :
    toolResultHook tcId calls res =
      (fun k => if k = tcId then none else calls k,
        some (res ++ [substitutionNote r])) := by
  rw [toolResultHook, h]

theorem toolResultHook_noRecord {tcId : String}
    {calls : String → Option EditRecord} (h : calls tcId = none)
    (res : List String) : toolResultHook tcId calls res = (calls, none) := by
  rw [toolResultHook, h]

theorem scrollStep_bounds (m o : Int) (hm : 0 ≤ m) (key : ScrollKey) :
    0 ≤ scrollStep m o key ∧ scrollStep m o key ≤ m := by
  cases key <;> (simp only [scrollStep, clampScroll]; omega)

theorem scrollRun_bounds : ∀ (ks : List ScrollKey) (m o : Int), 0 ≤ m →
    0 ≤ o → o ≤ m → 0 ≤ scrollRun m o ks ∧ scrollRun m o ks ≤ m := by
  intro ks
  induction ks with
  | nil => intro m o _ h0 h1; exact ⟨h0, h1⟩
  | cons k rest ih =>
    intro m o hm h0 h1
    have hs := scrollStep_bounds m o hm k
    exact ih m (scrollStep m o k) hm hs.1 hs.2

theorem simpleScrollStep_bounds (m o : Int) (hm : 0 ≤ m)
    (key : SimpleScrollKey) :
    0 ≤ simpleScrollStep m o key ∧ simpleScrollStep m o key ≤ m := by
  cases key <;> (simp only [simpleScrollStep, clampScroll]; omega)

theorem simpleScrollRun_bounds : ∀ (ks : List SimpleScrollKey) (m o : Int),
    0 ≤ m → 0 ≤ o → o ≤ m →
    0 ≤ simpleScrollRun m o ks ∧ simpleScrollRun m o ks ≤ m := by
  intro ks
  induction ks with
  | nil => intro m o _ h0 h1; exact ⟨h0, h1⟩
  | cons k rest ih =>
    intro m o hm h0 h1
    have hs := simpleScrollStep_bounds m o hm k
    exact ih m (simpleScrollStep m o k) hm hs.1 hs.2

/-!
The claim theorems.
-/

/-- C1: for every pair of line sequences, the edit script returned by
`myersDiff` reconstructs both inputs — replaying the Keep and Delete
operations, in order, yields exactly the old lines, and replaying the Keep
and Insert operations yields exactly the new lines. -/
theorem myersDiff_reconstructs (oldLines newLines : List String) :
    replayOld (myersDiff oldLines newLines) = oldLines ∧
    replayNew (myersDiff oldLines newLines) = newLines :=
  ⟨(myersDiff_main oldLines newLines).1,
    (myersDiff_main oldLines newLines).2.1⟩

/-- C2: for every pair of line sequences, the number of Insert plus Delete
operations of the script returned by `myersDiff` is the least edit cost over
all scripts transforming the old sequence into the new one — the Myers edit
distance of the pair. -/
theorem myersDiff_cost_minimal (oldLines newLines : List String) :
    IsLeast {c : Nat | ∃ e : List Edit,
        replayOld e = oldLines ∧ replayNew e = newLines ∧ editCost e = c}
      (editCost (myersDiff oldLines newLines)) := by
  constructor
  · exact ⟨myersDiff oldLines newLines,
      (myersDiff_main oldLines newLines).1,
      (myersDiff_main oldLines newLines).2.1, rfl⟩
  · intro c hc
    obtain ⟨e, h1, h2, rfl⟩ := hc
    exact (myersDiff_main oldLines newLines).2.2 e h1 h2

/-- C2 witness: on `["a"]`/`["b"]` the script of `myersDiff` is a script of
the pair and its cost is at most that of the delete-then-insert script. -/
theorem myersDiff_cost_minimal_witness :
    editCost (myersDiff ["a"] ["b"]) ∈ {c : Nat | ∃ e : List Edit,
        replayOld e = ["a"] ∧ replayNew e = ["b"] ∧ editCost e = c} ∧
    editCost (myersDiff ["a"] ["b"]) ≤ 2 :=
  ⟨(myersDiff_cost_minimal ["a"] ["b"]).1,
    (myersDiff_cost_minimal ["a"] ["b"]).2
      ⟨[Edit.delete "a", Edit.insert "b"], rfl, rfl, rfl⟩⟩

/-- C3 (amended): for two single-line changes separated by `M.length`
unchanged lines, `buildHunks` merges them into one hunk exactly when
`M.length + 1 ≤ 2 * contextLines` — i.e. up to `2c - 1` unchanged lines
between them merge, while `2c` or more (in particular the claim's boundary
of exactly `2c`, and `2c + 1`) split into two hunks.  The claim's assertion
that `2c` unchanged lines still merge is refuted by
`buildHunks_boundary_cex`. -/
theorem buildHunks_two_changes (c : Nat) (P M Q : List Edit) (c1 c2 : Edit)
    (hP : ∀ op ∈ P, op.isKeep = true) (hM : ∀ op ∈ M, op.isKeep = true)
    (hQ : ∀ op ∈ Q, op.isKeep = true) (h1 : c1.isKeep = false)
    (h2 : c2.isKeep = false) :
    (buildHunks (P ++ c1 :: (M ++ c2 :: Q)) c).length =
      if M.length + 1 ≤ 2 * c then 1 else 2 := by
  have hci := changeIndices_two P M Q c1 c2 hP hM hQ h1 h2
  rw [buildHunks_eq_of_ci c hci, List.length_map, buildGroups_pair]
  have hsub : P.length + 1 + M.length - P.length = M.length + 1 := by omega
  rw [hsub]
  by_cases hm : M.length + 1 ≤ 2 * c
  · rw [if_pos hm, if_pos hm]
    rfl
  · rw [if_neg hm, if_neg hm]
    rfl

/-- C3 witness: one delete, one unchanged line, one delete with one context
line — the two changes merge into a single hunk. -/
theorem buildHunks_two_changes_witness :
    (buildHunks ([] ++ Edit.delete "x" ::
        ([Edit.keep "a"] ++ Edit.delete "y" :: [])) 1).length =
      if List.length [Edit.keep "a"] + 1 ≤ 2 * 1 then 1 else 2 :=
  buildHunks_two_changes 1 [] [Edit.keep "a"] [] (Edit.delete "x")
    (Edit.delete "y") (by decide) (by decide) (by decide) (by decide)
    (by decide)

/-- C3 counterexample: with `contextLines = 1`, two single-line changes
separated by exactly `2 * contextLines = 2` unchanged lines produce two
hunks, where the claim predicts one merged hunk. -/
theorem buildHunks_boundary_cex :
    (buildHunks [Edit.delete "x", Edit.keep "a", Edit.keep "b",
      Edit.delete "y"] 1).length = 2 := by
  decide

/-- C4: approving a write whose staged content was changed from `A` to `B`
makes the outbound content `B`, stores exactly one substitution record for
the tool call id, and the `tool_result` hook consumes that record exactly
once — appending the line-delta note and deleting the record, so a second
result for the same id gets no note. -/
theorem writeReview_substitution (tcId A B : String) (hAB : B ≠ A)
    (res : List String) :
    (approveWrite tcId A B (fun _ => none)).1 = B ∧
    (approveWrite tcId A B (fun _ => none)).2 tcId =
      some { original := A, edited := B } ∧
    (∀ k, k ≠ tcId → (approveWrite tcId A B (fun _ => none)).2 k = none) ∧
    (toolResultHook tcId (approveWrite tcId A B (fun _ => none)).2 res).2 =
      some (res ++ [substitutionNote { original := A, edited := B }]) ∧
    (∀ k,
      (toolResultHook tcId (approveWrite tcId A B (fun _ => none)).2 res).1 k
        = none) ∧
    (toolResultHook tcId
      (toolResultHook tcId (approveWrite tcId A B (fun _ => none)).2 res).1
      res).2 = none := by
  have hA : approveWrite tcId A B (fun _ => none) =
      (B, fun k => if k = tcId then
        some { original := A, edited := B } else none) := by
    rw [approveWrite, if_pos hAB]
  have hm : (approveWrite tcId A B (fun _ => none)).2 tcId =
      some { original := A, edited := B } := by
    rw [hA]
    simp
  have hh := toolResultHook_some hm res
  refine ⟨by rw [hA], hm, ?_, ?_, ?_, ?_⟩
  · intro k hk
    rw [hA]
    simp [hk]
  · rw [hh]
  · intro k
    rw [hh]
    by_cases hk : k = tcId
    · simp [hk]
    · simp only [hk, if_false]
      rw [hA]
      simp [hk]
  · have hm2 : (toolResultHook tcId
        (approveWrite tcId A B (fun _ => none)).2 res).1 tcId = none := by
      rw [hh]
      simp
    rw [toolResultHook_noRecord hm2]

/-- C4 witness: the substitution flow at tool call "id" with content "a"
edited to "b" and an empty prior result. -/
theorem writeReview_substitution_witness :
    (approveWrite "id" "a" "b" (fun _ => none)).1 = "b" ∧
    (approveWrite "id" "a" "b" (fun _ => none)).2 "id" =
      some { original := "a", edited := "b" } ∧
    (approveWrite "id" "a" "b" (fun _ => none)).2 "other" = none ∧
    (toolResultHook "id" (approveWrite "id" "a" "b" (fun _ => none)).2 []).2 =
      some ([] ++ [substitutionNote { original := "a", edited := "b" }]) ∧
    (toolResultHook "id"
      (approveWrite "id" "a" "b" (fun _ => none)).2 []).1 "id" = none ∧
    (toolResultHook "id"
      (toolResultHook "id" (approveWrite "id" "a" "b" (fun _ => none)).2 []).1
      []).2 = none := by
  have h := writeReview_substitution "id" "a" "b" (by decide) []
  exact ⟨h.1, h.2.1, h.2.2.1 "other" (by decide), h.2.2.2.1,
    h.2.2.2.2.1 "id", h.2.2.2.2.2⟩

/-- C6: the review loop of `reviewEdit` returns on an approve or reject
decision, each time showing the diff regenerated from the current staged
contents; an edit decision never terminates the loop — it re-enters the
loop on the re-read contents with the fresh diff shown — and a decision
stream of edits alone never returns. -/
theorem reviewEdit_loop_spec :
    (∀ (rp : String) (ot nt : Nat → String) (j : Nat)
        (ds : List EditDecision) (shown : List String),
      reviewEditLoop rp ot nt j (EditDecision.approve :: ds) shown =
        some (true, shown ++ [generateUnifiedDiff rp (ot j) (nt j)]) ∧
      reviewEditLoop rp ot nt j (EditDecision.reject :: ds) shown =
        some (false, shown ++ [generateUnifiedDiff rp (ot j) (nt j)]) ∧
      reviewEditLoop rp ot nt j (EditDecision.edit :: ds) shown =
        reviewEditLoop rp ot nt (j + 1) ds
          (shown ++ [generateUnifiedDiff rp (ot j) (nt j)])) ∧
    (∀ (rp : String) (ot nt : Nat → String) (ds : List EditDecision),
      (∀ d ∈ ds, d = EditDecision.edit) →
      ∀ (j : Nat) (shown : List String),
        reviewEditLoop rp ot nt j ds shown = none) := by
  constructor
  · intro rp ot nt j ds shown
    exact ⟨rfl, rfl, rfl⟩
  · intro rp ot nt ds h
    induction ds with
    | nil => intro j shown; rfl
    | cons d rest ih =>
      intro j shown
      have hd : d = EditDecision.edit := h d (by simp)
      subst hd
      exact ih (fun d hd => h d (by simp [hd])) (j + 1)
        (shown ++ [generateUnifiedDiff rp (ot j) (nt j)])

/-- C6 witness: a decision stream of two edits leaves the loop running. -/
theorem reviewEdit_loop_spec_witness :
    reviewEditLoop "f.ts" (fun _ => "a") (fun _ => "b") 0
      [EditDecision.edit, EditDecision.edit] [] = none :=
  reviewEdit_loop_spec.2 "f.ts" (fun _ => "a") (fun _ => "b")
    [EditDecision.edit, EditDecision.edit] (by decide) 0 []

/-- C7: after a `reviewWrite` or `reviewEdit` run the staged files are gone
again whatever the outcome — staging then best-effort cleanup restores the
staged-file state — and the `session_shutdown` handler leaves no path under
the temporary root. -/
theorem staged_cleanup (fs : List String) (sp op np tmpDir : String)
    (hsp : sp ∉ fs) (hop : op ∉ fs) (hnp : np ∉ fs) (hone : op ≠ np) :
    reviewWriteFiles fs sp = fs ∧
    reviewEditFiles fs op np = fs ∧
    ∀ p ∈ shutdownCleanup tmpDir fs, underDir p tmpDir = false := by
  refine ⟨?_, ?_, ?_⟩
  · rw [reviewWriteFiles, stageFile, if_neg hsp, cleanupFile,
      List.erase_append_right _ hsp, List.erase_cons_head, List.append_nil]
  · have hnp2 : np ∉ fs ++ [op] := by
      intro hmem
      rcases List.mem_append.mp hmem with hmem | hmem
      · exact hnp hmem
      · simp at hmem
        exact hone hmem.symm
    have hs1 : stageFile fs op = fs ++ [op] := by
      rw [stageFile, if_neg hop]
    have hs2 : stageFile (fs ++ [op]) np = (fs ++ [op]) ++ [np] := by
      rw [stageFile, if_neg hnp2]
    have e1 : cleanupFile ((fs ++ [op]) ++ [np]) op = fs ++ [np] := by
      rw [cleanupFile, List.append_assoc, List.singleton_append,
        List.erase_append_right _ hop, List.erase_cons_head]
    have e2 : cleanupFile (fs ++ [np]) np = fs := by
      rw [cleanupFile, List.erase_append_right _ hnp, List.erase_cons_head,
        List.append_nil]
    rw [reviewEditFiles, hs1, hs2, e1, e2]
  · intro p hp
    rw [shutdownCleanup] at hp
    have := List.of_mem_filter hp
    simpa using this

/-- C7 witness: a run over an unrelated pre-existing path restores the
state, and that path does not sit under the temporary root. -/
theorem staged_cleanup_witness :
    reviewWriteFiles ["keep.txt"] "/tmp/pi/a" = ["keep.txt"] ∧
    reviewEditFiles ["keep.txt"] "/tmp/pi/o" "/tmp/pi/n" = ["keep.txt"] ∧
    underDir "keep.txt" "/tmp/pi" = false := by
  have h := staged_cleanup ["keep.txt"] "/tmp/pi/a" "/tmp/pi/o" "/tmp/pi/n"
    "/tmp/pi" (by decide) (by decide) (by decide) (by decide)
  exact ⟨h.1, h.2.1, h.2.2 "keep.txt" (by decide)⟩

/-- C8: diffing a sequence against itself yields zero hunks for every
context width, and the empty edit script yields zero hunks. -/
theorem diff_self_zero_hunks (s : List String) (c : Nat) :
    buildHunks (myersDiff s s) c = [] ∧
    buildHunks ([] : List Edit) c = [] := by
  constructor
  · have hmin := (myersDiff_main s s).2.2 (s.map Edit.keep)
      (replayOld_map_keep s) (replayNew_map_keep s)
    rw [editCost_map_keep] at hmin
    exact buildHunks_all_keep (editCost_zero_keep (Nat.le_zero.mp hmin)) c
  · rfl

/-- C9 (amended): the scroll offset of the review UI always stays within
`[0, maxScroll bodyLen]` with `maxScroll bodyLen = max 0 (bodyLen - 5)` —
for a 10-line body that bound is 5, not 0: down-scroll requests do move the
offset even though the 30-line window shows the whole body (refuted for the
claim's "stays at 0" by `scroll_nonzero_cex`). -/
theorem scroll_clamped (bodyLen : Nat) (o : Int) (ks : List ScrollKey)
    (ks2 : List SimpleScrollKey) (h0 : 0 ≤ o) (h1 : o ≤ maxScroll bodyLen) :
    (0 ≤ scrollRun (maxScroll bodyLen) o ks ∧
      scrollRun (maxScroll bodyLen) o ks ≤ maxScroll bodyLen) ∧
    (0 ≤ simpleScrollRun (maxScroll bodyLen) o ks2 ∧
      simpleScrollRun (maxScroll bodyLen) o ks2 ≤ maxScroll bodyLen) ∧
    maxScroll 10 = 5 := by
  have hm : 0 ≤ maxScroll bodyLen := le_max_left 0 _
  exact ⟨scrollRun_bounds ks _ o hm h0 h1,
    simpleScrollRun_bounds ks2 _ o hm h0 h1, by decide⟩

/-- C9 witness: the bounds at a 10-line body, offset 0 and single
down-steps. -/
theorem scroll_clamped_witness :
    (0 ≤ scrollRun (maxScroll 10) 0 [ScrollKey.down1] ∧
      scrollRun (maxScroll 10) 0 [ScrollKey.down1] ≤ maxScroll 10) ∧
    (0 ≤ simpleScrollRun (maxScroll 10) 0 [SimpleScrollKey.pageDown] ∧
      simpleScrollRun (maxScroll 10) 0 [SimpleScrollKey.pageDown] ≤
        maxScroll 10) ∧
    maxScroll 10 = 5 :=
  scroll_clamped 10 0 [ScrollKey.down1] [SimpleScrollKey.pageDown]
    (by decide) (by decide)

/-- C9 counterexample: for a 10-line body one down-scroll request moves the
offset to 1 — the offset does not stay at 0, because `maxScroll` is
`max 0 (10 - 5) = 5` regardless of the 30-line window. -/
theorem scroll_nonzero_cex :
    scrollRun (maxScroll 10) 0 [ScrollKey.down1] = 1 ∧ (1 : Int) ≠ 0 := by
  decide

/-- C10: the malformed-input gates are asymmetric — an empty path passes
the call through unreviewed in both handlers, while empty content, oldText
or newText is staged and reviewed normally; only a missing (null or
undefined) content/oldText/newText passes through. -/
theorem malformed_gate_asymmetry (p c o : String) (hp : p ≠ "") :
    (∀ content, reviewWriteGate (some "") content =
      GateOutcome.passThrough) ∧
    (∀ ot nt, reviewEditGate (some "") ot nt = GateOutcome.passThrough) ∧
    reviewWriteGate (some p) (some "") = GateOutcome.review [p, ""] ∧
    reviewEditGate (some p) (some "") (some "") =
      GateOutcome.review [p, "", ""] ∧
    reviewWriteGate (some p) none = GateOutcome.passThrough ∧
    reviewEditGate (some p) (some o) none = GateOutcome.passThrough ∧
    reviewWriteGate (some p) (some c) = GateOutcome.review [p, c] := by
  refine ⟨?_, ?_, ?_, ?_, ?_, ?_, ?_⟩
  · intro content
    simp [reviewWriteGate, jsFalsy]
  · intro ot nt
    simp [reviewEditGate, jsFalsy]
  · simp [reviewWriteGate, jsFalsy, jsIsNullish, hp]
  · simp [reviewEditGate, jsFalsy, jsIsNullish, hp]
  · simp [reviewWriteGate, jsFalsy, jsIsNullish, hp]
  · simp [reviewEditGate, jsFalsy, jsIsNullish, hp]
  · simp [reviewWriteGate, jsFalsy, jsIsNullish, hp]

/-- C10 witness: the gates at path "f.ts". -/
theorem malformed_gate_asymmetry_witness :
    reviewWriteGate (some "") (some "body") = GateOutcome.passThrough ∧
    reviewWriteGate (some "f.ts") (some "") =
      GateOutcome.review ["f.ts", ""] ∧
    reviewWriteGate (some "f.ts") none = GateOutcome.passThrough := by
  have h := malformed_gate_asymmetry "f.ts" "c" "o" (by decide)
  exact ⟨h.1 (some "body"), h.2.2.1, h.2.2.2.2.1⟩

end SlowMode
